import Mathlib

/-!
Verification of the source-synchronization core of the antigravity visual
editor.  Document text is modelled as `List Char`; JavaScript string
primitives (`substring`, `indexOf`, `split`, `trim`, first-occurrence
`replace`) are embedded as functions on character lists, and each operation
of the Mutation Engine and the Diff/Reconciliation Engine is translated
from its TypeScript source.  Stateful parts (the pending-change record of
`DiffPreviewProvider`, the module-global identity map of `ASTParser`) are
modelled by explicit state passing.
-/

namespace AG

/-- JavaScript whitespace test (`\s` on the ASCII range). -/
def jsIsWs (c : Char) : Bool :=
  c = ' ' || c = '\t' || c = '\n' || c = '\r' || c = '\x0b' || c = '\x0c'

/-- `String.prototype.trim`: strip whitespace from both ends. -/
def trimL (cs : List Char) : List Char :=
  ((cs.dropWhile jsIsWs).reverse.dropWhile jsIsWs).reverse

/-- Split a character list at every occurrence of `sep`
(JavaScript `split(sep)` for a one-character separator:
the result is always non-empty). -/
def splitOnC (sep : Char) : List Char → List (List Char)
  | [] => [[]]
  | c :: tl =>
    if c = sep then [] :: splitOnC sep tl
    else
      match splitOnC sep tl with
      | [] => [[c]]
      | l :: ls => (c :: l) :: ls

/-- Split into lines at `'\n'` (JavaScript `split('\n')`). -/
def splitNl (cs : List Char) : List (List Char) := splitOnC '\n' cs

/-- Join lines with `'\n'` (JavaScript `join('\n')`). -/
def joinNl : List (List Char) → List Char
  | [] => []
  | [l] => l
  | l :: ls => l ++ '\n' :: joinNl ls

/-- First offset at which `pat` occurs in `l` (leftmost match). -/
def findIn (pat : List Char) : List Char → Option Nat
  | [] => if pat = [] then some 0 else none
  | c :: tl =>
    if pat.isPrefixOf (c :: tl) then some 0
    else (findIn pat tl).map (· + 1)

/-- JavaScript `indexOf(pat, start)`: smallest `i ≥ start` where `pat`
occurs in `cs`, as an `Option` instead of `-1`. -/
def findFrom (cs pat : List Char) (start : Nat) : Option Nat :=
  (findIn pat (cs.drop start)).map (· + start)

/-- JavaScript `substring(a, b)`: both arguments are clamped to
`[0, length]` and swapped when out of order. -/
def jsSubstring (cs : List Char) (a b : Nat) : List Char :=
  let a' := min a cs.length
  let b' := min b cs.length
  let lo := min a' b'
  let hi := max a' b'
  (cs.drop lo).take (hi - lo)

/-- Insert `ins` at position `pos` (JavaScript
`s.substring(0, pos) + ins + s.substring(pos)`). -/
def spliceAt (cs : List Char) (pos : Nat) (ins : List Char) : List Char :=
  cs.take pos ++ ins ++ cs.drop pos

/-- JavaScript `replace` with a plain-string pattern: replace the first
occurrence of `target` by `repl`. -/
def replaceFirst (cs target repl : List Char) : List Char :=
  match findIn target cs with
  | some i => cs.take i ++ repl ++ cs.drop (i + target.length)
  | none => cs

/-- `|a - b|` on naturals. -/
def natDist (a b : Nat) : Nat := max a b - min a b

/-! ## Diff/Reconciliation Engine (`DiffPreviewProvider.calculateDiff`) -/

/-- One entry of the deleted-line set: the display anchor in the new text
and the removed line's content. -/
structure DeletedLine where
  afterLine : Nat
  content : List Char
deriving DecidableEq, Repr

/-- Result of `calculateDiff`. -/
structure DiffResult where
  addedLines : List Nat
  deletedLines : List DeletedLine
deriving DecidableEq, Repr

/-- Indices `i` (in increasing order) with `oldLines[i] = line`
(the `oldLineMap` bucket for `line`). -/
def candIdxs (oldLines : List (List Char)) (line : List Char) : List Nat :=
  (List.range oldLines.length).filter (fun i => oldLines.getD i [] = line)

/-- Scan the candidate old-line indices for the closest unclaimed one
(strict improvement, so the first minimal-distance candidate wins). -/
def pickBestGo (matchedOld : List Nat) (expected : Nat) :
    List Nat → Option (Nat × Nat) → Option (Nat × Nat)
  | [], best => best
  | i :: rest, best =>
    if i ∈ matchedOld then pickBestGo matchedOld expected rest best
    else
      let d := natDist i expected
      match best with
      | none => pickBestGo matchedOld expected rest (some (i, d))
      | some (bi, bd) =>
        if d < bd then pickBestGo matchedOld expected rest (some (i, d))
        else pickBestGo matchedOld expected rest (some (bi, bd))

/-- Closest unclaimed old line with content equal to `line`. -/
def pickBest (oldLines : List (List Char)) (matchedOld : List Nat)
    (line : List Char) (expected : Nat) : Option Nat :=
  (pickBestGo matchedOld expected (candIdxs oldLines line) none).map Prod.fst

/-- The forward matching pass: walk the new lines with an expected old
cursor, claiming identical old lines.  Returns the claimed old and new
index sets. -/
def fpGo (oldLines : List (List Char)) :
    List (List Char) → Nat → List Nat → List Nat → Nat → List Nat × List Nat
  | [], _, mOld, mNew, _ => (mOld, mNew)
  | line :: rest, newIdx, mOld, mNew, expected =>
    if expected < oldLines.length ∧ expected ∉ mOld ∧
        oldLines.getD expected [] = line then
      fpGo oldLines rest (newIdx + 1) (expected :: mOld) (newIdx :: mNew)
        (expected + 1)
    else
      match pickBest oldLines mOld line expected with
      | some b =>
        fpGo oldLines rest (newIdx + 1) (b :: mOld) (newIdx :: mNew)
          (if expected ≤ b then b + 1 else expected)
      | none => fpGo oldLines rest (newIdx + 1) mOld mNew expected

/-- Unmatched, non-blank new lines, in order: the ADDED set. -/
def addedPass (mNew : List Nat) : List (List Char) → Nat → List Nat
  | [], _ => []
  | line :: rest, idx =>
    if idx ∉ mNew ∧ trimL line ≠ [] then
      idx :: addedPass mNew rest (idx + 1)
    else addedPass mNew rest (idx + 1)

/-- First matched new index holding the given content (the inner
anchor-searching loop of the deletion pass). -/
def findMatchNi (mNew : List Nat) (line : List Char) :
    List (List Char) → Nat → Option Nat
  | [], _ => none
  | nl :: rest, ni =>
    if ni ∈ mNew ∧ line = nl then some ni
    else findMatchNi mNew line rest (ni + 1)

/-- The deletion pass: unclaimed, non-blank old lines become DELETED
entries with a clamped display anchor; matched lines only adjust the
running offset. -/
def delPass (newLines : List (List Char)) (mOld mNew : List Nat) :
    List (List Char) → Nat → Int → List DeletedLine
  | [], _, _ => []
  | line :: rest, lineNum, off =>
    if lineNum ∉ mOld then
      if trimL line ≠ [] then
        let afterLine : Int := lineNum + off
        let clamped : Int := max 0 (min afterLine ((newLines.length : Int) - 1))
        ⟨clamped.toNat, line⟩ :: delPass newLines mOld mNew rest (lineNum + 1) (off - 1)
      else delPass newLines mOld mNew rest (lineNum + 1) off
    else
      match findMatchNi mNew line newLines 0 with
      | some ni =>
        let expectedNewLine : Int := lineNum + off
        if expectedNewLine < ni then
          delPass newLines mOld mNew rest (lineNum + 1)
            (off + ((ni : Int) - expectedNewLine))
        else delPass newLines mOld mNew rest (lineNum + 1) off
      | none => delPass newLines mOld mNew rest (lineNum + 1) off

/-- `DiffPreviewProvider.calculateDiff`: positional-similarity line diff. -/
def calculateDiff (oldContent newContent : List Char) : DiffResult :=
  let oldLines := splitNl oldContent
  let newLines := splitNl newContent
  let ms := fpGo oldLines newLines 0 [] [] 0
  { addedLines := addedPass ms.2 newLines 0
    deletedLines := delPass newLines ms.1 ms.2 oldLines 0 0 }

/-! ## Pending-change staging (`DiffPreviewProvider`)

The provider's module state is modelled by `EditorState`: the current
document text (the edits are applied to the live document, unsaved), the
optional pending-change record, and the list of error messages shown so
far.  Decorations, CodeLens and notification pop-ups are presentation
concerns and are not modelled. -/

/-- The pending-change record of `DiffPreviewProvider`. -/
structure PendingChange where
  oldContent : List Char
  newContent : List Char
  description : List Char
  addedLines : List Nat
  deletedLines : List DeletedLine
  deletedLineNumbers : List Nat
  changeCount : Nat
deriving DecidableEq, Repr

/-- Document plus provider state (one document, as in the provider,
which holds at most one pending change). -/
structure EditorState where
  docText : List Char
  pending : Option PendingChange
  errorMsgs : List (List Char)
deriving DecidableEq, Repr

/-- `vscode.window.showErrorMessage`. -/
def pushErr (s : EditorState) (msg : List Char) : EditorState :=
  { s with errorMsgs := s.errorMsgs ++ [msg] }

/-- The commented line inserted for one deleted line:
`<!-- DELETED: ${deleted.content.trim()} -->`. -/
def mkMarker (c : List Char) : List Char :=
  "<!-- DELETED: ".toList ++ trimL c ++ " -->".toList

/-- The accept-time filter `line.trim().match(/^<!--\s*DELETED:/)`. -/
def isDeletedMarker (l : List Char) : Bool :=
  let t := trimL l
  "<!--".toList.isPrefixOf t &&
    "DELETED:".toList.isPrefixOf ((t.drop 4).dropWhile jsIsWs)

/-- JavaScript `lines.splice(idx, 0, x)`: insert `x` at `idx`,
appending when `idx` exceeds the length. -/
def spliceInsert (idx : Nat) (x : List Char) (ls : List (List Char)) :
    List (List Char) :=
  if idx ≤ ls.length then ls.take idx ++ x :: ls.drop idx else ls ++ [x]

/-- Stable insertion (ascending by `afterLine`) used by the JavaScript
`sort((a, b) => a.afterLine - b.afterLine)`. -/
def insByAfter (x : DeletedLine) : List DeletedLine → List DeletedLine
  | [] => [x]
  | y :: ys => if y.afterLine ≤ x.afterLine then y :: insByAfter x ys
               else x :: y :: ys

/-- Stable sort of the deleted-line entries by anchor. -/
def sortByAfter : List DeletedLine → List DeletedLine
  | [] => []
  | x :: xs => insByAfter x (sortByAfter xs)

/-- The comment-insertion loop of `recordChange`: each deleted line is
re-materialized as a marker comment at `afterLine + 1 + insertOffset`, and
the line number it lands on is pushed onto `deletedLineNumbers`. -/
def insertMarkers : List DeletedLine → Nat → List (List Char) → List Nat →
    List (List Char) × List Nat
  | [], _, lines, dln => (lines, dln)
  | d :: ds, off, lines, dln =>
    let insertAt := d.afterLine + 1 + off
    insertMarkers ds (off + 1) (spliceInsert insertAt (mkMarker d.content) lines)
      (dln ++ [insertAt])

/-- `DiffPreviewProvider.recordChange`: diff against the current document
text, open or extend the pending record, re-materialize deleted lines as
marker comments, and apply the decorated content to the document. -/
def recordChange (s : EditorState) (newContent description : List Char) :
    Bool × EditorState :=
  if s.docText = newContent then (false, s)
  else
    let diff := calculateDiff s.docText newContent
    let hasDel := diff.deletedLines ≠ []
    -- the JavaScript sort is in place, so the record of a fresh session
    -- holds the sorted array
    let sortedDel := if hasDel then sortByAfter diff.deletedLines
                     else diff.deletedLines
    let p : PendingChange :=
      match s.pending with
      | none =>
        { oldContent := s.docText, newContent := newContent,
          description := description, addedLines := diff.addedLines,
          deletedLines := sortedDel, deletedLineNumbers := [], changeCount := 1 }
      | some p0 =>
        let nd := calculateDiff p0.oldContent newContent
        { oldContent := p0.oldContent, newContent := newContent,
          description := p0.description ++ " + ".toList ++ description,
          addedLines := nd.addedLines, deletedLines := nd.deletedLines,
          deletedLineNumbers := p0.deletedLineNumbers,
          changeCount := p0.changeCount + 1 }
    let initDln := if p.changeCount > 1 then p.deletedLineNumbers else []
    let ins := if hasDel then insertMarkers sortedDel 0 (splitNl newContent) initDln
               else (splitNl newContent, initDln)
    let p2 := { p with
      deletedLineNumbers := ins.2,
      addedLines := p.addedLines.filter (fun n => n ∉ ins.2) }
    let applied := if hasDel then joinNl ins.1 else newContent
    (true, { docText := applied, pending := some p2, errorMsgs := s.errorMsgs })

/-- `DiffPreviewProvider.acceptPendingChange`: drop every
`<!-- DELETED: ... -->` line from the live document, persist the result
and clear the pending state. -/
def acceptPendingChange (s : EditorState) : Bool × EditorState :=
  match s.pending with
  | none => (false, s)
  | some _ =>
    let cleaned := joinNl ((splitNl s.docText).filter (fun l => ! isDeletedMarker l))
    (true, { docText := cleaned, pending := none, errorMsgs := s.errorMsgs })

/-- `DiffPreviewProvider.rejectPendingChange`: restore the recorded
original content and clear the pending state. -/
def rejectPendingChange (s : EditorState) : EditorState :=
  match s.pending with
  | none => s
  | some p => { docText := p.oldContent, pending := none, errorMsgs := s.errorMsgs }

/-! ## CodeSync: path resolution and tag scanning

`CodeSync` locates elements with hand-rolled regular-expression and
tag-balance scans over the document text.  Each concrete regular
expression of the source is embedded as a dedicated scanner. -/

/-- `[a-zA-Z]`. -/
def isAsciiAlpha (c : Char) : Bool :=
  ('a' ≤ c && c ≤ 'z') || ('A' ≤ c && c ≤ 'Z')

/-- `[a-zA-Z0-9]`. -/
def isAsciiAlnum (c : Char) : Bool :=
  isAsciiAlpha c || ('0' ≤ c && c ≤ '9')

/-- `toLowerCase`. -/
def toLowerL (cs : List Char) : List Char := cs.map Char.toLower

/-- Case-insensitive prefix test (the scanners model `i`-flagged
regular expressions). -/
def ciPrefix (pat l : List Char) : Bool :=
  (toLowerL pat).isPrefixOf (toLowerL l)

/-- Case-insensitive leftmost occurrence. -/
def findInCi (pat l : List Char) : Option Nat :=
  findIn (toLowerL pat) (toLowerL l)

/-- `"` or `'` (the regexes accept either quote and do not pair them). -/
def isQuote (c : Char) : Bool := c = '"' || c = '\''

/-- The fixed void-tag list used by every scan in `CodeSync`. -/
def selfClosingTags : List (List Char) :=
  ["br", "hr", "img", "input", "meta", "link", "area", "base", "col",
    "embed", "param", "source", "track", "wbr"].map String.toList

/-- `endsWith`. -/
def endsWith (suf l : List Char) : Bool := suf.reverse.isPrefixOf l.reverse

/-- Parsed form of one selector-path segment. -/
structure PathInfo where
  tagName : List Char
  id : Option (List Char)
  className : Option (List Char)
  nthChild : Option Nat
deriving DecidableEq, Repr

/-- Element bounds returned by the path scanners. -/
structure FoundLoc where
  start : Nat
  stop : Nat
  openTagEnd : Nat
  closeTagStart : Nat
deriving DecidableEq, Repr

/-- Character allowed in `#id` captures of `parsePathSegment`
(`[^\.\:\s\[]`). -/
def isSegIdChar (c : Char) : Bool :=
  !(c = '.' || c = ':' || jsIsWs c || c = '[')

/-- Character allowed in `#id` captures of `parseElementPath`
(`[^\.\:\s]`). -/
def isLooseIdChar (c : Char) : Bool :=
  !(c = '.' || c = ':' || jsIsWs c)

/-- First `mark` followed by a non-empty run of `ok` characters
(the `#(...)` and `\.(...)` capture scans). -/
def scanMarked (mark : Char) (ok : Char → Bool) : List Char → Option (List Char)
  | [] => none
  | c :: tl =>
    if c = mark ∧ tl.takeWhile ok ≠ [] then some (tl.takeWhile ok)
    else scanMarked mark ok tl

/-- `parseInt` on a digit run. -/
def digitsToNat (ds : List Char) : Nat :=
  ds.foldl (fun a c => a * 10 + (c.toNat - 48)) 0

/-- First `:nth-child(N)` occurrence. -/
def scanNth : List Char → Option Nat
  | [] => none
  | c :: tl =>
    if ":nth-child(".toList.isPrefixOf (c :: tl) then
      let rest := (c :: tl).drop 11
      let digits := rest.takeWhile Char.isDigit
      if digits ≠ [] ∧ (rest.drop digits.length).head? = some ')' then
        some (digitsToNat digits)
      else scanNth tl
    else scanNth tl

/-- `^([a-zA-Z][a-zA-Z0-9]*)`: a leading tag name. -/
def leadTagName : List Char → Option (List Char)
  | [] => none
  | c :: tl => if isAsciiAlpha c then some (c :: tl.takeWhile isAsciiAlnum) else none

/-- `CodeSync.parsePathSegment`: parse one segment of a full path
(tag, `#id`, `.class`, `:nth-child(N)`; tag defaults to `div` and is
lower-cased). -/
def parsePathSegment (seg : List Char) : Option PathInfo :=
  if seg = [] then none
  else
    let id := scanMarked '#' isSegIdChar seg
    let className := scanMarked '.' isSegIdChar seg
    let nthChild := scanNth seg
    let tagName := match leadTagName seg with
      | some t => toLowerL t
      | none => "div".toList
    some ⟨tagName, id, className, nthChild⟩

/-- `CodeSync.parseElementPath`: parse the last segment of a path; the
tag name keeps its case (the regexes that consume it are
case-insensitive), and an id is recognized only on a leading `#`. -/
def parseElementPath (path : List Char) : Option PathInfo :=
  if path = [] then none
  else
    let segments := (splitOnC '>' path).map trimL
    let lastSegment := segments.getLastD []
    let anchored :=
      if lastSegment.head? = some '#' then
        let cap := (lastSegment.drop 1).takeWhile isLooseIdChar
        if cap ≠ [] then some cap else none
      else none
    let tagName0 := match anchored with
      | some _ => "div".toList
      | none => lastSegment
    let className := scanMarked '.' isSegIdChar lastSegment
    let nthChild := scanNth lastSegment
    let tagName := match leadTagName lastSegment with
      | some t => t
      | none => tagName0
    some ⟨tagName, anchored, className, nthChild⟩

/-- Does a tag-interior region contain `id=["']ID["']`
(case-insensitive)? -/
def idAttrIn (idv : List Char) : List Char → Bool
  | [] => false
  | c :: tl =>
    (ciPrefix "id=".toList (c :: tl) &&
      (match (c :: tl).drop 3 with
       | q :: r =>
         isQuote q && ciPrefix idv r &&
           (match r.drop idv.length with
            | q2 :: _ => isQuote q2
            | [] => false)
       | [] => false)) ||
    idAttrIn idv tl

/-- Does a tag-interior region contain
`class=["'][^"']*CLS[^"']*["']` (case-insensitive)? -/
def classAttrIn (cls : List Char) : List Char → Bool
  | [] => false
  | c :: tl =>
    (ciPrefix "class=".toList (c :: tl) &&
      (match (c :: tl).drop 6 with
       | q :: r =>
         isQuote q &&
           (let body := r.takeWhile (fun d => ! isQuote d)
            (findInCi cls body).isSome && (r.drop body.length ≠ []))
       | [] => false)) ||
    classAttrIn cls tl

/-- First match of `<TAG[^>]*>` (case-insensitive) whose interior
region satisfies `inner`: the shape shared by `buildElementRegex` and
the tag regexes of `applyStyleEdit` / `findElementInRange`.  Returns
the match index and length. -/
def tagWithInner (tag : List Char) (inner : List Char → Bool) :
    List Char → Nat → Option (Nat × Nat)
  | [], _ => none
  | c :: tl, i =>
    if ciPrefix ('<' :: tag) (c :: tl) then
      match findIn ['>'] ((c :: tl).drop (1 + tag.length)) with
      | some g =>
        if inner (((c :: tl).drop (1 + tag.length)).take g) then
          some (i, 1 + tag.length + g + 1)
        else tagWithInner tag inner tl (i + 1)
      | none => tagWithInner tag inner tl (i + 1)
    else tagWithInner tag inner tl (i + 1)

/-- `CodeSync.buildElementRegex` (also the `tagRegex` of
`applyStyleEdit`): match by id, else by class, else by bare tag. -/
def buildElementRegexMatch (content : List Char) (pi : PathInfo) :
    Option (Nat × Nat) :=
  match pi.id with
  | some idv => tagWithInner pi.tagName (fun region => idAttrIn idv region) content 0
  | none =>
    match pi.className with
    | some cls => tagWithInner pi.tagName (fun region => classAttrIn cls region) content 0
    | none => tagWithInner pi.tagName (fun _ => true) content 0

/-- `^<([a-zA-Z][a-zA-Z0-9]*)` at `pos`. -/
def openTagNameAt (content : List Char) (pos : Nat) : Option (List Char) :=
  match content.drop pos with
  | '<' :: c :: tl => if isAsciiAlpha c then some (c :: tl.takeWhile isAsciiAlnum) else none
  | _ => none

/-- `^<\/([a-zA-Z][a-zA-Z0-9]*)\s*>` at `pos`: the close-tag name and
the match length. -/
def closeTagMatchAt (content : List Char) (pos : Nat) : Option (List Char × Nat) :=
  match content.drop pos with
  | '<' :: '/' :: c :: tl =>
    if isAsciiAlpha c then
      let name := c :: tl.takeWhile isAsciiAlnum
      let rest := tl.drop (tl.takeWhile isAsciiAlnum).length
      let ws := rest.takeWhile jsIsWs
      match rest.drop ws.length with
      | '>' :: _ => some (name, 2 + name.length + ws.length + 1)
      | _ => none
    else none
  | _ => none

/-- The loop of `CodeSync.findMatchingCloseTag`: depth-aware balance
scan with comment skipping and void-tag recognition. -/
def fmctGo (content lowerTag : List Char) : Nat → Nat → Nat → Option (Nat × Nat)
  | 0, _, _ => none
  | fuel + 1, pos, depth =>
    if pos < content.length ∧ 0 < depth then
      match findFrom content ['<'] pos with
      | none => none
      | some tagStart =>
        if "<!--".toList.isPrefixOf (content.drop tagStart) then
          match findFrom content "-->".toList tagStart with
          | some ce => fmctGo content lowerTag fuel (ce + 3) depth
          | none => fmctGo content lowerTag fuel content.length depth
        else if (content.drop (tagStart + 1)).head? = some '/' then
          match closeTagMatchAt content tagStart with
          | some (name, len) =>
            if toLowerL name = lowerTag then
              if depth = 1 then some (tagStart, tagStart + len)
              else fmctGo content lowerTag fuel (tagStart + len) (depth - 1)
            else fmctGo content lowerTag fuel (tagStart + len) depth
          | none => fmctGo content lowerTag fuel (tagStart + 1) depth
        else
          match openTagNameAt content tagStart with
          | some name =>
            match findFrom content ['>'] tagStart with
            | some gt =>
              let fullTag := jsSubstring content tagStart (gt + 1)
              let isSelf := endsWith "/>".toList fullTag ||
                decide (toLowerL name ∈ selfClosingTags)
              if isSelf = false ∧ toLowerL name = lowerTag then
                fmctGo content lowerTag fuel (gt + 1) (depth + 1)
              else fmctGo content lowerTag fuel (gt + 1) depth
            | none => fmctGo content lowerTag fuel (tagStart + 1) depth
          | none => fmctGo content lowerTag fuel (tagStart + 1) depth
    else none

/-- `CodeSync.findMatchingCloseTag`: the close tag's start and end
offsets. -/
def findMatchingCloseTag (content : List Char) (searchStart : Nat)
    (tagName : List Char) : Option (Nat × Nat) :=
  fmctGo content (toLowerL tagName) (content.length + 1) searchStart 1

/-- The loop of `CodeSync.findElementInRange` (non-id case): walk
direct children (depth 0) of the range, counting tag/class matches up
to the requested ordinal. -/
def feirGo (content : List Char) (rangeEnd : Nat) (info : PathInfo)
    (targetIndex : Nat) : Nat → Nat → Nat → Nat → Option FoundLoc
  | 0, _, _, _ => none
  | fuel + 1, pos, depth, foundCount =>
    if pos < rangeEnd then
      match findFrom content ['<'] pos with
      | none => none
      | some tagStart =>
        if rangeEnd ≤ tagStart then none
        else if "<!--".toList.isPrefixOf (content.drop tagStart) then
          let pos2 := match findFrom content "-->".toList tagStart with
            | some ce => ce + 3
            | none => rangeEnd
          feirGo content rangeEnd info targetIndex fuel pos2 depth foundCount
        else if (content.drop (tagStart + 1)).head? = some '/' then
          let depth2 := if 0 < depth then depth - 1 else depth
          let pos2 := match findFrom content ['>'] tagStart with
            | some ce => ce + 1
            | none => rangeEnd
          feirGo content rangeEnd info targetIndex fuel pos2 depth2 foundCount
        else
          match openTagNameAt content tagStart with
          | none => feirGo content rangeEnd info targetIndex fuel (tagStart + 1) depth foundCount
          | some name =>
            let foundTagName := toLowerL name
            match findFrom content ['>'] tagStart with
            | none => feirGo content rangeEnd info targetIndex fuel (tagStart + 1) depth foundCount
            | some gt =>
              let openTag := jsSubstring content tagStart (gt + 1)
              let isSelf := endsWith "/>".toList openTag ||
                decide (foundTagName ∈ selfClosingTags)
              let matchesB : Bool := decide (depth = 0) &&
                decide (foundTagName = toLowerL info.tagName) &&
                (match info.className with
                 | some cls => (findIn cls openTag).isSome
                 | none => true)
              if matchesB then
                if foundCount = targetIndex then
                  if isSelf then some ⟨tagStart, gt + 1, gt + 1, gt + 1⟩
                  else
                    match findMatchingCloseTag content (gt + 1) foundTagName with
                    | some cr => some ⟨tagStart, cr.2, gt + 1, cr.1⟩
                    | none =>
                      feirGo content rangeEnd info targetIndex fuel (gt + 1)
                        (depth + 1) (foundCount + 1)
                else
                  feirGo content rangeEnd info targetIndex fuel (gt + 1)
                    (if isSelf then depth else depth + 1) (foundCount + 1)
              else
                feirGo content rangeEnd info targetIndex fuel (gt + 1)
                  (if isSelf then depth else depth + 1) foundCount
    else none

/-- `CodeSync.findElementInRange`. -/
def findElementInRange (content : List Char) (rangeStart rangeEnd : Nat)
    (info : PathInfo) : Option FoundLoc :=
  match info.id with
  | some idv =>
    match tagWithInner info.tagName (fun region => idAttrIn idv region)
        (jsSubstring content rangeStart rangeEnd) 0 with
    | some (idx, len) =>
      let elementStart := rangeStart + idx
      let openTagEnd := elementStart + len
      match findMatchingCloseTag content openTagEnd info.tagName with
      | some cr => some ⟨elementStart, cr.2, openTagEnd, cr.1⟩
      | none => none
    | none => none
  | none =>
    let targetIndex := match info.nthChild with
      | some n => if n = 0 then 0 else n - 1
      | none => 0
    feirGo content rangeEnd info targetIndex (content.length + 1) rangeStart 0 0

/-- `/<body[^>]*>/i`: the first body open tag, with its length. -/
def bodyOpenMatch : List Char → Nat → Option (Nat × Nat)
  | [], _ => none
  | c :: tl, i =>
    if ciPrefix "<body".toList (c :: tl) then
      match findIn ['>'] ((c :: tl).drop 5) with
      | some g => some (i, 5 + g + 1)
      | none => bodyOpenMatch tl (i + 1)
    else bodyOpenMatch tl (i + 1)

/-- `/return\s*\(\s*</`: the offset of a JSX return statement. -/
def returnMatchIdx : List Char → Nat → Option Nat
  | [], _ => none
  | c :: tl, i =>
    (if "return".toList.isPrefixOf (c :: tl) then
      let r1 := (c :: tl).drop 6
      let r2 := r1.drop (r1.takeWhile jsIsWs).length
      match r2 with
      | '(' :: r3 =>
        let r4 := r3.drop (r3.takeWhile jsIsWs).length
        match r4 with
        | '<' :: _ => some i
        | _ => returnMatchIdx tl (i + 1)
      | _ => returnMatchIdx tl (i + 1)
    else returnMatchIdx tl (i + 1))

/-- `CodeSync.sanitizePath`: strip the preview-wrapper prefix. -/
def sanitizePath (path : List Char) : List Char :=
  if "#preview-content > ".toList.isPrefixOf path then path.drop 19
  else if "#preview-content>".toList.isPrefixOf path then path.drop 17
  else path

/-- `path.split('>').map(trim).filter(nonempty)`. -/
def splitSegments (path : List Char) : List (List Char) :=
  ((splitOnC '>' path).map trimL).filter (fun s => s ≠ [])

/-- The segment loop of `CodeSync.findElementByPath`. -/
def febpLoop (content : List Char) :
    List (List Char) → Nat → FoundLoc → Option FoundLoc
  | [], _, cur => some cur
  | seg :: rest, searchStart, cur =>
    match parsePathSegment seg with
    | none => none
    | some info =>
      match findElementInRange content searchStart cur.closeTagStart info with
      | none => none
      | some found => febpLoop content rest found.openTagEnd found

/-- `CodeSync.findElementByPath`: narrow the search range to the body
tag (markup) or the return statement (component source), then descend
segment by segment. -/
def findElementByPath (content path : List Char) : Option FoundLoc :=
  let segments := splitSegments path
  let se : Nat × Nat :=
    match bodyOpenMatch content 0 with
    | some (bi, bl) =>
      match findInCi "</body>".toList content with
      | some ci2 => (bi + bl, ci2)
      | none => (bi + bl, content.length)
    | none =>
      match returnMatchIdx content 0 with
      | some ri => (ri, content.length)
      | none => (0, content.length)
  febpLoop content segments se.1 ⟨se.1, se.2, se.1, se.2⟩

/-- The direct-child scan of `CodeSync.applyElementMove`: offsets of
the parent's direct structural children inside its inner content,
tracked with the same depth/comment/void-tag rules. -/
def dcpGo (inner : List Char) : Nat → Nat → Nat → List Nat
  | 0, _, _ => []
  | fuel + 1, i, depth =>
    if i < inner.length then
      if (inner.drop i).head? = some '<' then
        if "<!--".toList.isPrefixOf (inner.drop i) then
          match findFrom inner "-->".toList i with
          | some ce => dcpGo inner fuel (ce + 3) depth
          | none => dcpGo inner fuel inner.length depth
        else if (inner.drop (i + 1)).head? = some '/' then
          let depth2 := if 0 < depth then depth - 1 else depth
          match findFrom inner ['>'] i with
          | some ce => dcpGo inner fuel (ce + 1) depth2
          | none => dcpGo inner fuel inner.length depth2
        else
          match openTagNameAt inner i with
          | some name =>
            let tagName := toLowerL name
            let rest := match findFrom inner ['>'] i with
              | some tagEnd =>
                let tagContent := jsSubstring inner i (tagEnd + 1)
                let isSelf := endsWith "/>".toList tagContent ||
                  decide (tagName ∈ selfClosingTags)
                dcpGo inner fuel (tagEnd + 1) (if isSelf then depth else depth + 1)
              | none => dcpGo inner fuel (i + 1) depth
            if depth = 0 then i :: rest else rest
          | none => dcpGo inner fuel (i + 1) depth
      else dcpGo inner fuel (i + 1) depth
    else []

/-- Offsets of the direct structural children within the parent's
inner content. -/
def directChildPositions (inner : List Char) : List Nat :=
  dcpGo inner (inner.length + 1) 0 0

/-- `CodeSync.applyElementMove` without the editor plumbing: excise the
element, re-resolve the parent in the excised text, clamp the insertion
offset against the direct-child list, splice the removed text (prefixed
by a newline and two spaces).  `none` is the not-found failure. -/
def applyElementMove (content elementPath newParentPath : List Char)
    (newIndex : Int) : Option (List Char) :=
  match findElementByPath content (sanitizePath elementPath) with
  | none => none
  | some el =>
    let elementHtml := jsSubstring content el.start el.stop
    let excised := jsSubstring content 0 el.start ++ content.drop el.stop
    match findElementByPath excised (sanitizePath newParentPath) with
    | none => none
    | some par =>
      let inner := jsSubstring excised par.openTagEnd par.closeTagStart
      let positions := directChildPositions inner
      let insertPosition : Nat :=
        if newIndex ≤ 0 ∨ positions.length = 0 then par.openTagEnd
        else if (positions.length : Int) ≤ newIndex then par.closeTagStart
        else par.openTagEnd + positions.getD newIndex.toNat 0
      some (spliceAt excised insertPosition ('\n' :: ' ' :: ' ' :: elementHtml))

/-- The C1 clause in the spec's vocabulary: the source span is excised
first, the destination parent is resolved in the already-excised text,
and the removed text (prefixed by `"\n  "`) is spliced at the clamped
insertion offset computed from the parent's direct structural children. -/
def MoveSpec (content ep pp : List Char) (ni : Int) (out : List Char) : Prop :=
  ∃ el par : FoundLoc,
    findElementByPath content (sanitizePath ep) = some el ∧
    findElementByPath (jsSubstring content 0 el.start ++ content.drop el.stop)
      (sanitizePath pp) = some par ∧
    out = spliceAt (jsSubstring content 0 el.start ++ content.drop el.stop)
      (let inner := jsSubstring
          (jsSubstring content 0 el.start ++ content.drop el.stop)
          par.openTagEnd par.closeTagStart
       let positions := directChildPositions inner
       if ni ≤ 0 ∨ positions.length = 0 then par.openTagEnd
       else if (positions.length : Int) ≤ ni then par.closeTagStart
       else par.openTagEnd + positions.getD ni.toNat 0)
      ('\n' :: ' ' :: ' ' :: jsSubstring content el.start el.stop)

/-! ## ASTParser: parse model, identity injection and id-based mutations

`parseHTML` delegates the tag scan to an external event-driven markup
library that is not part of this repository.  Modelled from the spec
(SS4.1): an event-driven tag scan that pushes a node on an open tag,
records the end offset on the matching close tag, recognizes the fixed
void-tag set and self-closing tags, skips comments, and fails (empty
tree + ParseError) on unparsable text.  `ElementNode` keeps the fields
the claims mention: tag name, end-exclusive source span and children
(`id` is assigned separately below). -/

/-- A parsed element node (`ElementNode` without the presentation
fields). -/
inductive PNode where
  | mk (tagName : List Char) (sourceStart openEnd sourceEnd : Nat)
      (children : List PNode)

/-- Tag name. -/
def PNode.tagName : PNode → List Char
  | ⟨t, _, _, _, _⟩ => t

/-- Start offset (inclusive). -/
def PNode.sourceStart : PNode → Nat
  | ⟨_, s, _, _, _⟩ => s

/-- Offset just after the open tag's closing angle bracket. -/
def PNode.openEnd : PNode → Nat
  | ⟨_, _, oe, _, _⟩ => oe

/-- End offset (exclusive). -/
def PNode.sourceEnd : PNode → Nat
  | ⟨_, _, _, e, _⟩ => e

/-- Child nodes. -/
def PNode.children : PNode → List PNode
  | ⟨_, _, _, _, cs⟩ => cs

/-- Modelled from the spec: the event-driven sibling scan of the markup
parser (the external tag-stream library behind `parseHTML` and
`HtmlParser.parse`).  Parses sibling elements starting at `pos`,
stopping before a close tag or at the end of input; malformed input
(unterminated or mismatched tags) yields `none`. -/
def parseSibs (content : List Char) : Nat → Nat → Option (List PNode × Nat)
  | 0, _ => none
  | fuel + 1, pos =>
    if content.length ≤ pos then some ([], pos)
    else
      let rest := content.drop pos
      if "</".toList.isPrefixOf rest then some ([], pos)
      else if "<!--".toList.isPrefixOf rest then
        match findFrom content "-->".toList pos with
        | some ce => parseSibs content fuel (ce + 3)
        | none => none
      else if "<!".toList.isPrefixOf rest then
        match findFrom content ['>'] pos with
        | some gt => parseSibs content fuel (gt + 1)
        | none => none
      else
        match openTagNameAt content pos with
        | some rawName =>
          let name := toLowerL rawName
          match findFrom content ['>'] pos with
          | none => none
          | some gt =>
            let selfClosing := (content.getD (gt - 1) ' ' = '/') ||
              decide (name ∈ selfClosingTags)
            if selfClosing then
              match parseSibs content fuel (gt + 1) with
              | some (sibs, p) => some (⟨name, pos, gt + 1, gt + 1, []⟩ :: sibs, p)
              | none => none
            else
              match parseSibs content fuel (gt + 1) with
              | none => none
              | some (children, cpos) =>
                match closeTagMatchAt content cpos with
                | some (cname, clen) =>
                  if toLowerL cname = name then
                    match parseSibs content fuel (cpos + clen) with
                    | some (sibs, p) =>
                      some (⟨name, pos, gt + 1, cpos + clen, children⟩ :: sibs, p)
                    | none => none
                  else none
                | none => none
        | none =>
          if rest.head? = some '<' then parseSibs content fuel (pos + 1)
          else
            match findFrom content ['<'] (pos + 1) with
            | some nx => parseSibs content fuel nx
            | none => some ([], content.length)

/-- `parseHTML` on the model scan: the element tree, or `none` when the
text does not parse. -/
def parseHTMLm (content : List Char) : Option (List PNode) :=
  match parseSibs content (content.length + 2) 0 with
  | some (ns, p) => if p = content.length then some ns else none
  | none => none

/-- The span invariant of C7: the node's span sits inside `[lo, hi]`,
is non-empty, and every child's span nests inside it. -/
inductive SpanInv : Nat → Nat → PNode → Prop where
  | node : ∀ {lo hi : Nat} {t : List Char} {s oe e : Nat} {cs : List PNode},
      lo ≤ s → s < e → e ≤ hi → (∀ c ∈ cs, SpanInv s e c) →
      SpanInv lo hi ⟨t, s, oe, e, cs⟩

/-- `collectNodes` plus `generateId` numbering: preorder flattening of
the tree with the per-parse counter value each node's id draws (the
worklist visit order is exactly preorder). -/
def collectNum : Nat → List PNode → Nat → List (PNode × Nat)
  | 0, _, _ => []
  | _ + 1, [], _ => []
  | fuel + 1, ⟨t, s, oe, e, cs⟩ :: rest, k =>
    ⟨⟨t, s, oe, e, cs⟩, k⟩ :: collectNum fuel (cs ++ rest) (k + 1)

/-- One identity-map entry: the pre-injection span and tag name. -/
structure IdLoc where
  start : Nat
  stop : Nat
  tagName : List Char
deriving DecidableEq, Repr

/-- First binding for `id` (JavaScript `Map.get` with unique keys). -/
def lookupId (m : List (List Char × IdLoc)) (id : List Char) : Option IdLoc :=
  match m with
  | [] => none
  | kv :: rest => if kv.1 = id then some kv.2 else lookupId rest id

/-- The structural tags skipped by `injectElementIds`. -/
def excludedTags : List (List Char) :=
  ["!doctype", "html", "head", "body", "meta", "link", "script", "style",
    "title"].map String.toList

/-- Decimal digits of a number (most significant first). -/
def natDigitsGo : Nat → Nat → List Char → List Char
  | 0, _, acc => acc
  | fuel + 1, n, acc =>
    let d := Char.ofNat (48 + n % 10)
    if n < 10 then d :: acc else natDigitsGo fuel (n / 10) (d :: acc)

/-- Decimal rendering of a number. -/
def natDigits (n : Nat) : List Char := natDigitsGo (n + 1) n []

/-- Modelled from the spec: identity values are ephemeral per-parse
unique markers (SS4.3); `generateId`'s wall-clock component is
environment-dependent and is modelled by the per-parse counter alone. -/
def mkAgId (k : Nat) : List Char := "ag-".toList ++ natDigits k

/-- Stable insertion for the descending-by-start sort of
`injectElementIds`. -/
def insByStartDesc (x : PNode × Nat) : List (PNode × Nat) → List (PNode × Nat)
  | [] => [x]
  | y :: ys =>
    if x.1.sourceStart ≤ y.1.sourceStart then y :: insByStartDesc x ys
    else x :: y :: ys

/-- `allNodes.sort((a, b) => b.start - a.start)`. -/
def sortByStartDesc : List (PNode × Nat) → List (PNode × Nat)
  | [] => []
  | x :: xs => insByStartDesc x (sortByStartDesc xs)

/-- `^<TAG(\s|>|\/>)` (case-insensitive): the length of the injection
anchor match. -/
def agInjectMatch (seg tag : List Char) : Option Nat :=
  if ciPrefix ('<' :: tag) seg then
    match seg.drop (1 + tag.length) with
    | c :: rest2 =>
      if jsIsWs c then some (1 + tag.length + 1)
      else if c = '>' then some (1 + tag.length + 1)
      else if c = '/' then
        match rest2 with
        | '>' :: _ => some (1 + tag.length + 2)
        | _ => none
      else none
    | [] => none
  else none

/-- The injection loop of `injectElementIds`: nodes in descending
start order; each injection never shifts a not-yet-processed offset. -/
def injectLoop : List (PNode × Nat) → List Char → List (List Char × IdLoc) →
    List Char × List (List Char × IdLoc)
  | [], result, idMap => (result, idMap)
  | (n, k) :: rest, result, idMap =>
    if n.tagName ∈ excludedTags then injectLoop rest result idMap
    else
      match agInjectMatch (result.drop n.sourceStart) n.tagName with
      | some matchLen =>
        let insertPos := n.sourceStart + matchLen - 1
        let injection := " data-ag-id=\"".toList ++ mkAgId k ++ ['"']
        injectLoop rest (spliceAt result insertPos injection)
          (idMap ++ [(mkAgId k, ⟨n.sourceStart, n.sourceEnd, n.tagName⟩)])
      | none => injectLoop rest result idMap

/-- `ASTParser.injectElementIds`: inject `data-ag-id` markers (from the
end of the text towards the start) and return the modified text and the
id map of pre-injection positions; the map replaces the module-global
`lastIdMap` wholesale. -/
def injectElementIds (content : List Char) :
    Option (List Char × List (List Char × IdLoc)) :=
  match parseHTMLm content with
  | none => none
  | some roots =>
    some (injectLoop (sortByStartDesc (collectNum (content.length + 1) roots 0)) content [])

/-- `ASTParser.findElementById`: a pure lookup in the stored map; the
`content` argument is not consulted. -/
def findElementById (m : List (List Char × IdLoc)) (content : List Char)
    (id : List Char) : Option IdLoc :=
  lookupId m id

/-- `ASTParser.deleteElementById`. -/
def deleteElementById (m : List (List Char × IdLoc)) (content : List Char)
    (id : List Char) : Option (List Char) :=
  match findElementById m content id with
  | none => none
  | some el => some (jsSubstring content 0 el.start ++ content.drop el.stop)

/-- `\s*data-ag-id=["'][^"']*["']` anchored at the head, without the
leading whitespace run: the match length. -/
def validAgIdAt (cs : List Char) : Option Nat :=
  if "data-ag-id=".toList.isPrefixOf cs then
    match cs.drop 11 with
    | q :: r =>
      if isQuote q then
        match r.drop (r.takeWhile (fun c => ! isQuote c)).length with
        | _ :: _ => some (11 + 1 + (r.takeWhile (fun c => ! isQuote c)).length + 1)
        | [] => none
      else none
    | [] => none
  else none

/-- First offset (and length) of a well-formed `data-ag-id` attribute
value. -/
def findAgIdGo : List Char → Nat → Option (Nat × Nat)
  | [], _ => none
  | c :: tl, i =>
    match validAgIdAt (c :: tl) with
    | some len => some (i, len)
    | none => findAgIdGo tl (i + 1)

/-- `replace(/\s*data-ag-id=["'][^"']*["']/, '')`: strip the first
identity marker (and the whitespace run before it); no global flag, so
at most one marker is removed. -/
def stripFirstAgId (cs : List Char) : List Char :=
  match findAgIdGo cs 0 with
  | some il =>
    let wsLen := ((cs.take il.1).reverse.takeWhile jsIsWs).length
    cs.take (il.1 - wsLen) ++ cs.drop (il.1 + il.2)
  | none => cs

/-- `ASTParser.duplicateElementById`: reinsert a copy of the span right
after its end, newline-separated, with the first identity marker
stripped from the copy. -/
def duplicateElementById (m : List (List Char × IdLoc)) (content : List Char)
    (id : List Char) : Option (List Char) :=
  match findElementById m content id with
  | none => none
  | some el =>
    some (jsSubstring content 0 el.stop ++
      '\n' :: stripFirstAgId (jsSubstring content el.start el.stop) ++
      content.drop el.stop)

/-! ## CodeSync operations over the editor state -/

/-- `CodeSync.applyEdit`: drop silent no-ops, otherwise hand the new
content to the diff provider. -/
def applyEditS (s : EditorState) (newContent description : List Char) :
    Bool × EditorState :=
  if s.docText = newContent then (false, s)
  else recordChange s newContent description

/-- `CodeSync.applyElementDelete`: id-based deletion first, then the
path fallback; an unresolved locator reports an error and leaves the
state untouched. -/
def applyElementDeleteS (m : List (List Char × IdLoc)) (s : EditorState)
    (elementPath : List Char) (agId : Option (List Char)) :
    Bool × EditorState :=
  let agResult := match agId with
    | some i => deleteElementById m s.docText i
    | none => none
  let newContent := match agResult with
    | some nc => some nc
    | none =>
      match findElementByPath s.docText (sanitizePath elementPath) with
      | some loc => some (jsSubstring s.docText 0 loc.start ++ s.docText.drop loc.stop)
      | none => none
  match newContent with
  | none => (false, pushErr s "Could not find element to delete".toList)
  | some nc => applyEditS s nc "Element Deleted".toList

/-- `CodeSync.applyElementDuplicate`. -/
def applyElementDuplicateS (m : List (List Char × IdLoc)) (s : EditorState)
    (elementPath : List Char) (agId : Option (List Char)) :
    Bool × EditorState :=
  let agResult := match agId with
    | some i => duplicateElementById m s.docText i
    | none => none
  let newContent := match agResult with
    | some nc => some nc
    | none =>
      match findElementByPath s.docText (sanitizePath elementPath) with
      | some loc =>
        some (jsSubstring s.docText 0 loc.stop ++
          '\n' :: jsSubstring s.docText loc.start loc.stop ++
          s.docText.drop loc.stop)
      | none => none
  match newContent with
  | none => (false, pushErr s "Could not find element to duplicate".toList)
  | some nc => applyEditS s nc "Element Duplicated".toList

/-- `CodeSync.applyElementMove` over the editor state, with the two
distinct failure messages. -/
def applyElementMoveS (s : EditorState) (elementPath newParentPath : List Char)
    (newIndex : Int) : Bool × EditorState :=
  match findElementByPath s.docText (sanitizePath elementPath) with
  | none => (false, pushErr s "Could not find element to move".toList)
  | some el =>
    let elementHtml := jsSubstring s.docText el.start el.stop
    let excised := jsSubstring s.docText 0 el.start ++ s.docText.drop el.stop
    match findElementByPath excised (sanitizePath newParentPath) with
    | none => (false, pushErr s "Could not find parent element".toList)
    | some par =>
      let inner := jsSubstring excised par.openTagEnd par.closeTagStart
      let positions := directChildPositions inner
      let insertPosition : Nat :=
        if newIndex ≤ 0 ∨ positions.length = 0 then par.openTagEnd
        else if (positions.length : Int) ≤ newIndex then par.closeTagStart
        else par.openTagEnd + positions.getD newIndex.toNat 0
      applyEditS s (spliceAt excised insertPosition ('\n' :: ' ' :: ' ' :: elementHtml))
        "Element Rearranged".toList

/-- First match of `(<TAG[^>]*>)([^<]*)(<\/TAG>)` (case-insensitive):
start, open-tag end, close-tag start. -/
def simpleMatch (tag : List Char) : List Char → Nat → Option (Nat × Nat × Nat)
  | [], _ => none
  | c :: tl, i =>
    if ciPrefix ('<' :: tag) (c :: tl) then
      match findIn ['>'] ((c :: tl).drop (1 + tag.length)) with
      | some g =>
        let openEnd := i + 1 + tag.length + g + 1
        let afterGt := (c :: tl).drop (1 + tag.length + g + 1)
        let body := afterGt.takeWhile (fun d => d ≠ '<')
        if ciPrefix ('<' :: '/' :: tag ++ ['>']) (afterGt.drop body.length) then
          some (i, openEnd, openEnd + body.length)
        else simpleMatch tag tl (i + 1)
      | none => simpleMatch tag tl (i + 1)
    else simpleMatch tag tl (i + 1)

/-- `CodeSync.simpleTextReplace`: replace the first bare
`<tag>text</tag>` body. -/
def simpleTextReplaceS (s : EditorState) (tagName newText : List Char) :
    Bool × EditorState :=
  match simpleMatch tagName s.docText 0 with
  | none =>
    (false, pushErr s ("Could not find <".toList ++ tagName ++ "> element".toList))
  | some (_, openEnd, closeStart) =>
    applyEditS s (s.docText.take openEnd ++ newText ++ s.docText.drop closeStart)
      "Text Edit".toList

/-- `CodeSync.applyTextEdit`: regex-located open tag, then splice the
new text before the next literal close tag; falls back to
`simpleTextReplace`. -/
def applyTextEditS (s : EditorState) (elementPath newText : List Char) :
    Bool × EditorState :=
  match parseElementPath elementPath with
  | none => (false, pushErr s "Could not parse element path".toList)
  | some pi =>
    match buildElementRegexMatch s.docText pi with
    | some ml =>
      let startTag := jsSubstring s.docText ml.1 (ml.1 + ml.2)
      let startIndex := (findIn startTag s.docText).getD 0
      let closeTag := '<' :: '/' :: pi.tagName ++ ['>']
      match findFrom s.docText closeTag (startIndex + startTag.length) with
      | none => (false, pushErr s "Could not find closing tag".toList)
      | some closeIndex =>
        applyEditS s (jsSubstring s.docText 0 (startIndex + startTag.length) ++
          newText ++ s.docText.drop closeIndex) "Text Edit".toList
    | none => simpleTextReplaceS s pi.tagName newText

/-- `property.replace(/([a-z])([A-Z])/g, '$1-$2')`. -/
def camelKebabGo : List Char → List Char
  | [] => []
  | [c] => [c]
  | a :: b :: tl =>
    if (('a' ≤ a && a ≤ 'z') && ('A' ≤ b && b ≤ 'Z')) then
      a :: '-' :: b :: camelKebabGo tl
    else a :: camelKebabGo (b :: tl)

/-- camelCase to kebab-case, then `toLowerCase`. -/
def camelToKebab (p : List Char) : List Char := toLowerL (camelKebabGo p)

/-- `style=["']([^"']*)["']` anchored at the head: match length and the
captured style text. -/
def styleAttrMatchAt (cs : List Char) : Option (Nat × List Char) :=
  if "style=".toList.isPrefixOf cs then
    match cs.drop 6 with
    | q :: r =>
      if isQuote q then
        match r.drop (r.takeWhile (fun c => ! isQuote c)).length with
        | _ :: _ => some (6 + 1 + (r.takeWhile (fun c => ! isQuote c)).length + 1,
            r.takeWhile (fun c => ! isQuote c))
        | [] => none
      else none
    | [] => none
  else none

/-- First `style` attribute in an opening tag: start, length, captured
existing style. -/
def styleAttrFirstGo : List Char → Nat → Option (Nat × Nat × List Char)
  | [], _ => none
  | c :: tl, i =>
    match styleAttrMatchAt (c :: tl) with
    | some lb => some (i, lb.1, lb.2)
    | none => styleAttrFirstGo tl (i + 1)

/-- `${css}\s*:\s*[^;]+;?` anchored at the head: the match length
(whitespace is itself matched by `[^;]+`, so the body is the maximal
non-semicolon run). -/
def propMatchAt (css cs : List Char) : Option Nat :=
  if css.isPrefixOf cs then
    match cs.drop (css.length + ((cs.drop css.length).takeWhile jsIsWs).length) with
    | ':' :: r2 =>
      let body := r2.takeWhile (fun c => c ≠ ';')
      if body = [] then none
      else
        let base := css.length + ((cs.drop css.length).takeWhile jsIsWs).length +
          1 + body.length
        match r2.drop body.length with
        | ';' :: _ => some (base + 1)
        | _ => some base
    | _ => none
  else none

/-- The global `replace(propRegex, ...)` over a style text: whether any
match was found, and the rewritten text. -/
def propReplaceGo (css repl : List Char) : Nat → List Char → Bool × List Char
  | 0, cs => (false, cs)
  | fuel + 1, cs =>
    match cs with
    | [] => (false, [])
    | c :: tl =>
      match propMatchAt css cs with
      | some len =>
        let r := propReplaceGo css repl fuel (cs.drop len)
        (true, repl ++ r.2)
      | none =>
        let r := propReplaceGo css repl fuel tl
        (r.1, c :: r.2)

/-- Replace every `css: value` declaration, reporting whether one was
present. -/
def propReplaceAll (css value existing : List Char) : Bool × List Char :=
  propReplaceGo css (css ++ ':' :: ' ' :: value ++ [';']) (existing.length + 1) existing

/-- The new opening tag computed by `CodeSync.applyStyleEdit`: update
the existing style attribute (replace the property or append the
declaration), or append a fresh style attribute before the tag's final
`>`. -/
def styleNewOpeningTag (openingTag cssProperty value : List Char) : List Char :=
  match styleAttrFirstGo openingTag 0 with
  | some msl =>
    let existingStyle := msl.2.2
    let pr := propReplaceAll cssProperty value existingStyle
    let newStyle :=
      if pr.1 then pr.2
      else if endsWith [';'] existingStyle then
        existingStyle ++ ' ' :: cssProperty ++ ':' :: ' ' :: value ++ [';']
      else existingStyle ++ ';' :: ' ' :: cssProperty ++ ':' :: ' ' :: value ++ [';']
    openingTag.take msl.1 ++ "style=\"".toList ++ newStyle ++
      '"' :: openingTag.drop (msl.1 + msl.2.1)
  | none =>
    if endsWith ['>'] openingTag then
      openingTag.dropLast ++ ' ' :: "style=\"".toList ++ cssProperty ++
        ':' :: ' ' :: value ++ ';' :: '"' :: ['>']
    else openingTag

/-- `CodeSync.applyStyleEdit` without the editor plumbing: `none` is
the not-found/unparsable failure. -/
def applyStyleEditCore (content elementPath property value : List Char) :
    Option (List Char) :=
  match parseElementPath elementPath with
  | none => none
  | some pi =>
    match buildElementRegexMatch content pi with
    | none => none
    | some ml =>
      let openingTag := jsSubstring content ml.1 (ml.1 + ml.2)
      some (replaceFirst content openingTag
        (styleNewOpeningTag openingTag (camelToKebab property) value))

/-- `CodeSync.applyStyleEdit` over the editor state. -/
def applyStyleEditS (s : EditorState) (elementPath property value : List Char) :
    Bool × EditorState :=
  match parseElementPath elementPath with
  | none => (false, pushErr s "Could not parse element path".toList)
  | some pi =>
    match buildElementRegexMatch s.docText pi with
    | none =>
      (false, pushErr s ("Could not find <".toList ++ pi.tagName ++ "> element".toList))
    | some ml =>
      let openingTag := jsSubstring s.docText ml.1 (ml.1 + ml.2)
      applyEditS s (replaceFirst s.docText openingTag
          (styleNewOpeningTag openingTag (camelToKebab property) value))
        ("Style: ".toList ++ camelToKebab property)

end AG

namespace AG

/-! ### Diff lemmas: the self diff claims every line in order -/

lemma fpGo_self (ls : List (List Char)) :
    ∀ (rest : List (List Char)) (k : Nat) (m m' : List Nat),
      rest = ls.drop k →
      (∀ i, i ∈ m ↔ i < k) → (∀ i, i ∈ m' ↔ i < k) →
      (∀ j, j < ls.length → j ∈ (fpGo ls rest k m m' k).1 ∧
        j ∈ (fpGo ls rest k m m' k).2) := by
  intro rest
  induction rest with
  | nil =>
    intro k m m' hrest hm hm' j hj
    have hk : ls.length ≤ k := by
      by_contra hlt
      push_neg at hlt
      have := List.drop_eq_nil_iff.mp hrest.symm
      omega
    simp only [fpGo]
    exact ⟨(hm j).mpr (by omega), (hm' j).mpr (by omega)⟩
  | cons line rest' ih =>
    intro k m m' hrest hm hm' j hj
    have hk : k < ls.length := by
      by_contra hge
      push_neg at hge
      have : ls.drop k = [] := List.drop_eq_nil_iff.mpr hge
      rw [← hrest] at this
      exact List.cons_ne_nil _ _ this
    have hhead : ls.getD k [] = line := by
      have h1 : (ls.drop k).head? = some line := by rw [← hrest]; rfl
      have h2 : ls[k]? = some line := by
        rw [← List.head?_drop]; exact h1
      simp [List.getD, h2]
    have htail : rest' = ls.drop (k + 1) := by
      have h3 := List.tail_drop ls k
      rw [← hrest] at h3
      simpa using h3
    have hcond : k < ls.length ∧ k ∉ m ∧ ls.getD k [] = line :=
      ⟨hk, fun hmem => by have := (hm k).mp hmem; omega, hhead⟩
    simp only [fpGo, if_pos hcond]
    exact ih (k + 1) (k :: m) (k :: m') htail
      (fun i => by
        simp only [List.mem_cons, hm]
        omega)
      (fun i => by
        simp only [List.mem_cons, hm']
        omega) j hj

lemma addedPass_all (m : List Nat) :
    ∀ (ls : List (List Char)) (k : Nat),
      (∀ i, k ≤ i → i < k + ls.length → i ∈ m) →
      addedPass m ls k = [] := by
  intro ls
  induction ls with
  | nil => intro k _; rfl
  | cons line rest ih =>
    intro k hmem
    have hk : k ∈ m := hmem k (le_refl k) (by simp)
    have : ¬ (k ∉ m ∧ trimL line ≠ []) := fun h => h.1 hk
    simp only [addedPass, if_neg this]
    exact ih (k + 1) (fun i h1 h2 => hmem i (by omega) (by simp at *; omega))

lemma delPass_all (newLines : List (List Char)) (mOld mNew : List Nat) :
    ∀ (ls : List (List Char)) (k : Nat) (off : Int),
      (∀ i, k ≤ i → i < k + ls.length → i ∈ mOld) →
      delPass newLines mOld mNew ls k off = [] := by
  intro ls
  induction ls with
  | nil => intro k off _; rfl
  | cons line rest ih =>
    intro k off hmem
    have hk : k ∈ mOld := hmem k (le_refl k) (by simp)
    simp only [delPass, if_neg (fun h : k ∉ mOld => h hk)]
    have hrec : ∀ off : Int, delPass newLines mOld mNew rest (k + 1) off = [] :=
      fun o => ih (k + 1) o (fun i h1 h2 => hmem i (by omega) (by simp at *; omega))
    cases findMatchNi mNew line newLines 0 with
    | none => exact hrec off
    | some ni =>
      by_cases hlt : (k : Int) + off < ni
      · simp only [if_pos hlt]; exact hrec _
      · simp only [if_neg hlt]; exact hrec off

end AG

namespace AG

lemma dropWhile_eq_self_of_head {p : Char → Bool} :
    ∀ l : List Char, (∀ c, l.head? = some c → p c = false) → l.dropWhile p = l := by
  intro l h
  cases l with
  | nil => rfl
  | cons c tl => simp [List.dropWhile, h c rfl]

lemma trimL_eq_self {l : List Char}
    (h1 : ∀ c, l.head? = some c → jsIsWs c = false)
    (h2 : ∀ c, l.reverse.head? = some c → jsIsWs c = false) :
    trimL l = l := by
  unfold trimL
  rw [dropWhile_eq_self_of_head l h1, dropWhile_eq_self_of_head l.reverse h2,
    List.reverse_reverse]

lemma mkMarker_head (c : List Char) : (mkMarker c).head? = some '<' := by
  rfl

lemma mkMarker_rev_head (c : List Char) :
    (mkMarker c).reverse.head? = some '>' := by
  have hB : " -->".toList.reverse = '>' :: "-- ".toList := by decide
  simp [mkMarker, List.reverse_append, hB]

lemma trimL_mkMarker (c : List Char) : trimL (mkMarker c) = mkMarker c := by
  apply trimL_eq_self
  · intro d hd; rw [mkMarker_head] at hd; cases hd; decide
  · intro d hd; rw [mkMarker_rev_head] at hd; cases hd; decide

lemma isDeletedMarker_mkMarker (c : List Char) :
    isDeletedMarker (mkMarker c) = true := by
  unfold isDeletedMarker
  rw [trimL_mkMarker]
  have h0 : mkMarker c =
      '<' :: '!' :: '-' :: '-' :: ' ' :: 'D' :: 'E' :: 'L' :: 'E' :: 'T' :: 'E' :: 'D' :: ':' :: ' ' :: (trimL c ++ " -->".toList) := by
    simp [mkMarker]
  rw [h0]
  simp [List.isPrefixOf, List.dropWhile, jsIsWs]

end AG

namespace AG

lemma splitOnC_ne_nil (sep : Char) : ∀ cs, splitOnC sep cs ≠ [] := by
  intro cs
  cases cs with
  | nil => simp [splitOnC]
  | cons c tl =>
    simp only [splitOnC]
    split
    · simp
    · cases h : splitOnC sep tl with
      | nil => simp
      | cons l ls => simp

lemma joinNl_splitNl : ∀ cs : List Char, joinNl (splitNl cs) = cs := by
  intro cs
  induction cs with
  | nil => rfl
  | cons c tl ih =>
    simp only [splitNl, splitOnC] at *
    by_cases hc : c = '\n'
    · subst hc
      simp only [if_pos rfl]
      cases h : splitOnC '\n' tl with
      | nil => exact absurd h (splitOnC_ne_nil '\n' tl)
      | cons l ls =>
        rw [h] at ih
        simp only [joinNl]
        cases ls with
        | nil => simp only [joinNl] at ih ⊢; rw [ih]; simp
        | cons l2 ls2 => simp only [joinNl] at ih ⊢; rw [ih]; simp
    · rw [if_neg hc]
      cases h : splitOnC '\n' tl with
      | nil => exact absurd h (splitOnC_ne_nil '\n' tl)
      | cons l ls =>
        rw [h] at ih
        cases ls with
        | nil => simp only [joinNl] at ih ⊢; rw [ih]
        | cons l2 ls2 =>
          simp only [joinNl] at ih ⊢
          simp [ih]

lemma not_nl_mem_splitNl : ∀ (cs l : List Char), l ∈ splitNl cs → '\n' ∉ l := by
  intro cs
  induction cs with
  | nil =>
    intro l hl
    simp [splitNl, splitOnC] at hl
    simp [hl]
  | cons c tl ih =>
    intro l hl
    simp only [splitNl, splitOnC] at hl
    by_cases hc : c = '\n'
    · rw [if_pos hc] at hl
      rcases List.mem_cons.mp hl with h | h
      · simp [h]
      · exact ih l h
    · rw [if_neg hc] at hl
      cases h : splitOnC '\n' tl with
      | nil => exact absurd h (splitOnC_ne_nil '\n' tl)
      | cons m ms =>
        rw [h] at hl
        rcases List.mem_cons.mp hl with h1 | h1
        · subst h1
          intro hmem
          rcases List.mem_cons.mp hmem with h2 | h2
          · exact hc h2.symm
          · refine ih m ?_ h2
            rw [splitNl, h]
            exact List.mem_cons_self m ms
        · refine ih l ?_
          rw [splitNl, h]
          exact List.mem_cons_of_mem m h1

lemma splitNl_single {l : List Char} (h : '\n' ∉ l) : splitNl l = [l] := by
  induction l with
  | nil => rfl
  | cons c tl ih =>
    have hc : c ≠ '\n' := fun he => h (he ▸ List.mem_cons_self c tl)
    have htl : '\n' ∉ tl := fun hm => h (List.mem_cons_of_mem c hm)
    simp only [splitNl, splitOnC, if_neg hc] at *
    rw [ih htl]

lemma splitNl_append_nl {l : List Char} (h : '\n' ∉ l) (rest : List Char) :
    splitNl (l ++ '\n' :: rest) = l :: splitNl rest := by
  induction l with
  | nil => simp [splitNl, splitOnC]
  | cons c tl ih =>
    have hc : c ≠ '\n' := fun he => h (he ▸ List.mem_cons_self c tl)
    have htl : '\n' ∉ tl := fun hm => h (List.mem_cons_of_mem c hm)
    simp only [List.cons_append, splitNl, splitOnC, if_neg hc, List.append_eq] at *
    rw [ih htl]

lemma splitNl_joinNl : ∀ ls : List (List Char), ls ≠ [] →
    (∀ l ∈ ls, '\n' ∉ l) → splitNl (joinNl ls) = ls := by
  intro ls
  induction ls with
  | nil => intro h; exact absurd rfl h
  | cons l ls2 ih =>
    intro _ hmem
    cases ls2 with
    | nil =>
      simp only [joinNl]
      exact splitNl_single (hmem l (List.mem_cons_self l []))
    | cons l2 ls3 =>
      simp only [joinNl]
      rw [splitNl_append_nl (hmem l (List.mem_cons_self l _))]
      rw [ih (by simp) (fun x hx => hmem x (List.mem_cons_of_mem l hx))]

end AG
namespace AG

lemma filter_spliceInsert {p : List Char → Bool} {x : List Char}
    (hx : p x = false) (idx : Nat) (ls : List (List Char)) :
    (spliceInsert idx x ls).filter p = ls.filter p := by
  unfold spliceInsert
  split
  · rw [List.filter_append, List.filter_cons, hx]
    simp only [Bool.false_eq_true, if_false]
    rw [← List.filter_append, List.take_append_drop]
  · rw [List.filter_append, List.filter_cons, hx]
    simp

lemma mem_spliceInsert {x l : List Char} {idx : Nat} {ls : List (List Char)}
    (h : l ∈ spliceInsert idx x ls) : l = x ∨ l ∈ ls := by
  unfold spliceInsert at h
  split at h
  · rcases List.mem_append.mp h with h1 | h1
    · exact Or.inr (List.mem_of_mem_take h1)
    · rcases List.mem_cons.mp h1 with h2 | h2
      · exact Or.inl h2
      · exact Or.inr (List.mem_of_mem_drop h2)
  · rcases List.mem_append.mp h with h1 | h1
    · exact Or.inr h1
    · exact Or.inl (List.mem_singleton.mp h1)

lemma spliceInsert_ne_nil (idx : Nat) (x : List Char) (ls : List (List Char)) :
    spliceInsert idx x ls ≠ [] := by
  unfold spliceInsert
  split
  · intro h
    have := congrArg List.length h
    simp at this
  · simp

lemma filter_insertMarkers :
    ∀ (ds : List DeletedLine) (off : Nat) (ls : List (List Char)) (dln : List Nat),
      ((insertMarkers ds off ls dln).1).filter (fun l => ! isDeletedMarker l) =
        ls.filter (fun l => ! isDeletedMarker l) := by
  intro ds
  induction ds with
  | nil => intro off ls dln; rfl
  | cons d ds2 ih =>
    intro off ls dln
    simp only [insertMarkers]
    rw [ih]
    exact filter_spliceInsert (by rw [isDeletedMarker_mkMarker d.content]; rfl) _ _

lemma mem_insertMarkers_fst (P : List Char → Prop) :
    ∀ (ds : List DeletedLine) (off : Nat) (ls : List (List Char)) (dln : List Nat),
      (∀ l ∈ ls, P l) → (∀ d ∈ ds, P (mkMarker d.content)) →
      ∀ l ∈ (insertMarkers ds off ls dln).1, P l := by
  intro ds
  induction ds with
  | nil => intro off ls dln hls _ l hl; exact hls l hl
  | cons d ds2 ih =>
    intro off ls dln hls hds l hl
    refine ih _ _ _ ?_ (fun d2 hd2 => hds d2 (List.mem_cons_of_mem d hd2)) l hl
    intro l2 hl2
    rcases mem_spliceInsert hl2 with h1 | h1
    · exact h1 ▸ hds d (List.mem_cons_self d ds2)
    · exact hls l2 h1

lemma insertMarkers_fst_ne_nil :
    ∀ (ds : List DeletedLine) (off : Nat) (ls : List (List Char)) (dln : List Nat),
      ls ≠ [] → (insertMarkers ds off ls dln).1 ≠ [] := by
  intro ds
  induction ds with
  | nil => intro off ls dln h; exact h
  | cons d ds2 ih =>
    intro off ls dln _
    exact ih _ _ _ (spliceInsert_ne_nil _ _ _)

lemma mem_insByAfter {d x : DeletedLine} :
    ∀ l : List DeletedLine, d ∈ insByAfter x l ↔ d = x ∨ d ∈ l := by
  intro l
  induction l with
  | nil => simp [insByAfter]
  | cons y ys ih =>
    simp only [insByAfter]
    split
    · simp only [List.mem_cons, ih]
      tauto
    · simp only [List.mem_cons]

lemma mem_sortByAfter {d : DeletedLine} :
    ∀ l : List DeletedLine, d ∈ sortByAfter l ↔ d ∈ l := by
  intro l
  induction l with
  | nil => simp [sortByAfter]
  | cons x xs ih =>
    simp only [sortByAfter, mem_insByAfter, ih, List.mem_cons]

lemma delPass_content_mem (newLines : List (List Char)) (mOld mNew : List Nat) :
    ∀ (ls : List (List Char)) (k : Nat) (off : Int) (d : DeletedLine),
      d ∈ delPass newLines mOld mNew ls k off → d.content ∈ ls := by
  intro ls
  induction ls with
  | nil => intro k off d hd; simp [delPass] at hd
  | cons line rest ih =>
    intro k off d hd
    simp only [delPass] at hd
    split at hd
    · split at hd
      · rcases List.mem_cons.mp hd with h1 | h1
        · subst h1; exact List.mem_cons_self line rest
        · exact List.mem_cons_of_mem line (ih _ _ _ h1)
      · exact List.mem_cons_of_mem line (ih _ _ _ hd)
    · split at hd
      · split at hd
        · exact List.mem_cons_of_mem line (ih _ _ _ hd)
        · exact List.mem_cons_of_mem line (ih _ _ _ hd)
      · exact List.mem_cons_of_mem line (ih _ _ _ hd)

lemma calculateDiff_deleted_content {a b : List Char} {d : DeletedLine}
    (h : d ∈ (calculateDiff a b).deletedLines) : d.content ∈ splitNl a := by
  unfold calculateDiff at h
  exact delPass_content_mem _ _ _ _ _ _ _ h

lemma not_nl_mem_mkMarker {c : List Char} (h : '\n' ∉ c) :
    '\n' ∉ mkMarker c := by
  intro hm
  unfold mkMarker at hm
  rcases List.mem_append.mp hm with h1 | h1
  · rcases List.mem_append.mp h1 with h2 | h2
    · revert h2; decide
    · apply h
      have sub1 := List.dropWhile_sublist (p := jsIsWs) (l := c)
      have sub2 := List.dropWhile_sublist (p := jsIsWs) (l := (c.dropWhile jsIsWs).reverse)
      unfold trimL at h2
      rw [List.mem_reverse] at h2
      exact sub1.mem (List.mem_reverse.mp (sub2.mem h2))
  · revert h1; decide

end AG
namespace AG

lemma recordChange_result (s : EditorState) (newContent description : List Char)
    (hne : s.docText ≠ newContent) :
    ∃ lines2 : List (List Char),
      (recordChange s newContent description).2.docText = joinNl lines2 ∧
      (recordChange s newContent description).2.errorMsgs = s.errorMsgs ∧
      ((recordChange s newContent description).2.pending).isSome = true ∧
      lines2.filter (fun l => ! isDeletedMarker l) =
        (splitNl newContent).filter (fun l => ! isDeletedMarker l) ∧
      lines2 ≠ [] ∧ (∀ l ∈ lines2, '\n' ∉ l) := by
  simp only [recordChange, if_neg hne]
  by_cases hd : (calculateDiff s.docText newContent).deletedLines = []
  · simp only [hd, ne_eq, not_true_eq_false, if_false, reduceIte]
    refine ⟨splitNl newContent, (joinNl_splitNl newContent).symm, ?_, ?_, rfl,
      splitOnC_ne_nil _ _, fun l hl => not_nl_mem_splitNl _ l hl⟩
    · trivial
    · trivial
  · simp only [ne_eq, hd, not_false_eq_true, if_true, reduceIte]
    refine ⟨_, rfl, ?A, ?B, filter_insertMarkers _ _ _ _, ?_, ?_⟩
    case A => trivial
    case B => trivial
    · exact insertMarkers_fst_ne_nil _ _ _ _ (splitOnC_ne_nil _ _)
    · refine mem_insertMarkers_fst (fun l => '\n' ∉ l) _ _ _ _
        (fun l hl => not_nl_mem_splitNl _ l hl) ?_
      intro d hdm
      have h1 : d ∈ (calculateDiff s.docText newContent).deletedLines :=
        (mem_sortByAfter _).mp hdm
      exact not_nl_mem_mkMarker
        (not_nl_mem_splitNl _ _ (calculateDiff_deleted_content h1))

lemma accept_of_isSome {s : EditorState} (h : s.pending.isSome = true) :
    acceptPendingChange s =
      (true, ⟨joinNl ((splitNl s.docText).filter (fun l => ! isDeletedMarker l)),
        none, s.errorMsgs⟩) := by
  unfold acceptPendingChange
  cases hp : s.pending with
  | none => rw [hp] at h; simp at h
  | some p => rfl

end AG

theorem pending_accept_reject :
    (∀ (s : AG.EditorState) (p : AG.PendingChange), s.pending = some p →
      AG.rejectPendingChange s = ⟨p.oldContent, none, s.errorMsgs⟩) ∧
    (∀ (s : AG.EditorState) (newContent description : List Char),
      s.docText ≠ newContent →
      (∀ l ∈ AG.splitNl newContent, AG.isDeletedMarker l = false) →
      AG.acceptPendingChange (AG.recordChange s newContent description).2 =
        (true, ⟨newContent, none, s.errorMsgs⟩)) := by
  constructor
  · intro s p hp
    unfold AG.rejectPendingChange
    rw [hp]
  · intro s newContent description hne hclean
    obtain ⟨lines2, hdoc, herr, hsome, hfilt, hne2, hnl⟩ :=
      AG.recordChange_result s newContent description hne
    rw [AG.accept_of_isSome hsome, hdoc, herr]
    rw [AG.splitNl_joinNl lines2 hne2 hnl, hfilt,
      List.filter_eq_self.mpr (fun a ha => by rw [hclean a ha]; rfl),
      AG.joinNl_splitNl]

theorem accept_marker_counterexample :
    ((AG.recordChange ⟨"<!-- DELETED: a -->\nX".toList, none, []⟩
        "<!-- DELETED: a -->\nY".toList "Edit".toList).2.pending.map
          AG.PendingChange.newContent = some "<!-- DELETED: a -->\nY".toList) ∧
    (AG.acceptPendingChange (AG.recordChange ⟨"<!-- DELETED: a -->\nX".toList, none, []⟩
        "<!-- DELETED: a -->\nY".toList "Edit".toList).2).2.docText ≠
      "<!-- DELETED: a -->\nY".toList := by decide

theorem pending_accept_reject_witness :
    AG.acceptPendingChange (AG.recordChange ⟨"A".toList, none, []⟩ "B".toList "Edit".toList).2
      = (true, ⟨"B".toList, none, []⟩) ∧
    AG.rejectPendingChange ⟨"X".toList, some ⟨"O".toList, "X".toList, [], [], [], [], 1⟩, []⟩
      = ⟨"O".toList, none, []⟩ :=
  ⟨pending_accept_reject.2 ⟨"A".toList, none, []⟩ "B".toList "Edit".toList
      (by decide) (by decide),
    pending_accept_reject.1 _ _ rfl⟩

/-! ## Claim theorems -/

/-- C4: for every text value `t`, `calculateDiff t t` returns an empty
added-lines list and an empty deleted-lines list. -/
theorem diff_self_empty (t : List Char) :
    AG.calculateDiff t t = ⟨[], []⟩ := by
  unfold AG.calculateDiff
  have hfp := AG.fpGo_self (AG.splitNl t) (AG.splitNl t) 0 [] []
    (by simp) (by simp) (by simp)
  have hadd := AG.addedPass_all
    (AG.fpGo (AG.splitNl t) (AG.splitNl t) 0 [] [] 0).2 (AG.splitNl t) 0
    (fun i _ h2 => (hfp i (by omega)).2)
  have hdel := AG.delPass_all (AG.splitNl t)
    (AG.fpGo (AG.splitNl t) (AG.splitNl t) 0 [] [] 0).1
    (AG.fpGo (AG.splitNl t) (AG.splitNl t) 0 [] [] 0).2 (AG.splitNl t) 0 0
    (fun i _ h2 => (hfp i (by omega)).1)
  simp only [hadd, hdel]

/-- C3: on `oldText = "A\nB\nC"` and `newText = "A\nX\nC"`, the diff
returns `addedLines = [1]` and one deleted entry with content `"B"`
anchored at line 1. -/
theorem diff_concrete_case :
    AG.calculateDiff "A\nB\nC".toList "A\nX\nC".toList =
      ⟨[1], [⟨1, "B".toList⟩]⟩ := by decide
namespace AG

lemma findIn_bounds {pat : List Char} :
    ∀ {l : List Char} {j : Nat}, findIn pat l = some j → j + pat.length ≤ l.length := by
  intro l
  induction l with
  | nil =>
    intro j h
    simp only [findIn] at h
    split at h
    · cases h
      simp_all
    · cases h
  | cons c tl ih =>
    intro j h
    simp only [findIn] at h
    split at h
    · cases h
      have hp : pat <+: c :: tl := by
        rw [← List.isPrefixOf_iff_prefix]
        assumption
      have := hp.length_le
      simpa using this
    · rcases Option.map_eq_some'.mp h with ⟨j', hj', rfl⟩
      have := ih hj'
      simp only [List.length_cons]
      omega

lemma findFrom_bounds {cs pat : List Char} {start i : Nat}
    (hp : pat ≠ []) (h : findFrom cs pat start = some i) :
    start ≤ i ∧ i + pat.length ≤ cs.length := by
  unfold findFrom at h
  rcases Option.map_eq_some'.mp h with ⟨j, hj, rfl⟩
  have := findIn_bounds hj
  have hd : (cs.drop start).length = cs.length - start := List.length_drop start cs
  have hp2 : 0 < pat.length := List.length_pos.mpr hp
  omega

lemma closeTagMatchAt_bounds {content : List Char} {pos : Nat}
    {n : List Char} {len : Nat}
    (h : closeTagMatchAt content pos = some (n, len)) :
    0 < len ∧ pos + len ≤ content.length := by
  unfold closeTagMatchAt at h
  split at h
  case _ c tl heq =>
    split at h
    · dsimp only at h
      split at h
      case _ heq2 =>
        cases h
        have h1 : (tl.takeWhile isAsciiAlnum).length ≤ tl.length :=
          (List.takeWhile_sublist _).length_le
        have h2 : ((tl.drop (tl.takeWhile isAsciiAlnum).length).takeWhile jsIsWs).length ≤
            (tl.drop (tl.takeWhile isAsciiAlnum).length).length :=
          (List.takeWhile_sublist _).length_le
        have h3 : (tl.drop (tl.takeWhile isAsciiAlnum).length).length =
            tl.length - (tl.takeWhile isAsciiAlnum).length := List.length_drop _ _
        have h4 : ((tl.drop (tl.takeWhile isAsciiAlnum).length).drop
            ((tl.drop (tl.takeWhile isAsciiAlnum).length).takeWhile jsIsWs).length) ≠ [] := by
          rw [heq2]; simp
        have h5 : ((tl.drop (tl.takeWhile isAsciiAlnum).length).drop
            ((tl.drop (tl.takeWhile isAsciiAlnum).length).takeWhile jsIsWs).length).length =
            (tl.drop (tl.takeWhile isAsciiAlnum).length).length -
              ((tl.drop (tl.takeWhile isAsciiAlnum).length).takeWhile jsIsWs).length :=
          List.length_drop _ _
        have h6 : 0 < ((tl.drop (tl.takeWhile isAsciiAlnum).length).drop
            ((tl.drop (tl.takeWhile isAsciiAlnum).length).takeWhile jsIsWs).length).length :=
          List.length_pos.mpr h4
        have h7 : (content.drop pos).length = content.length - pos := List.length_drop _ _
        have h8 : ('<' :: '/' :: c :: tl).length = 3 + tl.length := by simp; omega
        rw [heq] at h7
        rw [h8] at h7
        have h9 : pos ≤ content.length := by
          by_contra hgt
          push_neg at hgt
          have : content.drop pos = [] := List.drop_eq_nil_iff.mpr (by omega)
          rw [heq] at this
          cases this
        constructor
        · simp
        · simp only [List.length_cons]
          omega
      case _ => cases h
    · cases h
  case _ => cases h

lemma fmctGo_bounds {content lowerTag : List Char} :
    ∀ (fuel pos depth : Nat) {a b : Nat},
      fmctGo content lowerTag fuel pos depth = some (a, b) →
      pos ≤ a ∧ a < b ∧ b ≤ content.length := by
  intro fuel
  induction fuel with
  | zero => intro pos depth a b h; cases h
  | succ fuel ih =>
    intro pos depth a b h
    unfold fmctGo at h
    split at h
    case isFalse => cases h
    case isTrue hcond =>
      cases hfl : findFrom content ['<'] pos with
      | none => rw [hfl] at h; dsimp only at h; cases h
      | some tagStart =>
        rw [hfl] at h; dsimp only at h
        have hts := findFrom_bounds (by simp) hfl
        by_cases hcm : "<!--".toList.isPrefixOf (content.drop tagStart)
        · rw [if_pos hcm] at h
          cases hce : findFrom content "-->".toList tagStart with
          | some ce =>
            rw [hce] at h; dsimp only at h
            have hce2 := findFrom_bounds (by simp) hce
            have := ih (ce + 3) depth h
            omega
          | none =>
            rw [hce] at h; dsimp only at h
            have := ih content.length depth h
            omega
        · rw [if_neg hcm] at h
          by_cases hsl : (content.drop (tagStart + 1)).head? = some '/'
          · rw [if_pos hsl] at h
            cases hct : closeTagMatchAt content tagStart with
            | some nl =>
              rw [hct] at h; dsimp only at h
              obtain ⟨name, len⟩ := nl
              have hctb := closeTagMatchAt_bounds hct
              split at h
              · split at h
                · cases h; omega
                · have := ih (tagStart + len) (depth - 1) h
                  omega
              · have := ih (tagStart + len) depth h
                omega
            | none =>
              rw [hct] at h; dsimp only at h
              have := ih (tagStart + 1) depth h
              omega
          · rw [if_neg hsl] at h
            cases hot : openTagNameAt content tagStart with
            | some name =>
              rw [hot] at h; dsimp only at h
              cases hgt : findFrom content ['>'] tagStart with
              | some gt =>
                rw [hgt] at h; dsimp only at h
                have hgt2 := findFrom_bounds (by simp) hgt
                split at h
                · have := ih (gt + 1) (depth + 1) h
                  omega
                · have := ih (gt + 1) depth h
                  omega
              | none =>
                rw [hgt] at h; dsimp only at h
                have := ih (tagStart + 1) depth h
                omega
            | none =>
              rw [hot] at h; dsimp only at h
              have := ih (tagStart + 1) depth h
              omega

lemma findMatchingCloseTag_bounds {content tagName : List Char}
    {searchStart a b : Nat}
    (h : findMatchingCloseTag content searchStart tagName = some (a, b)) :
    searchStart ≤ a ∧ a < b ∧ b ≤ content.length :=
  fmctGo_bounds _ _ _ h

end AG
namespace AG

lemma tagWithInner_len_pos {tag : List Char} {inner : List Char → Bool} :
    ∀ {l : List Char} {i0 idx len : Nat},
      tagWithInner tag inner l i0 = some (idx, len) → 0 < len := by
  intro l
  induction l with
  | nil => intro i0 idx len h; cases h
  | cons c tl ih =>
    intro i0 idx len h
    unfold tagWithInner at h
    split at h
    · split at h
      · split at h
        · cases h; omega
        · exact ih h
      · exact ih h
    · exact ih h

lemma feirGo_bounds {content : List Char} {rangeEnd : Nat} {info : PathInfo}
    {targetIndex : Nat} :
    ∀ (fuel pos depth foundCount : Nat) {loc : FoundLoc},
      feirGo content rangeEnd info targetIndex fuel pos depth foundCount = some loc →
      loc.start ≤ loc.openTagEnd ∧ loc.openTagEnd ≤ loc.closeTagStart ∧
        loc.closeTagStart ≤ loc.stop ∧ loc.stop ≤ content.length := by
  intro fuel
  induction fuel with
  | zero => intro pos depth fc loc h; cases h
  | succ fuel ih =>
    intro pos depth fc loc h
    unfold feirGo at h
    split at h
    case isFalse => cases h
    case isTrue hcond =>
      cases hfl : findFrom content ['<'] pos with
      | none => rw [hfl] at h; cases h
      | some tagStart =>
        rw [hfl] at h; dsimp only at h
        have hts := findFrom_bounds (by simp) hfl
        split at h
        case isTrue => cases h
        case isFalse hre =>
          by_cases hcm : "<!--".toList.isPrefixOf (content.drop tagStart)
          · rw [if_pos hcm] at h
            cases hce : findFrom content "-->".toList tagStart with
            | some ce => rw [hce] at h; dsimp only at h; exact ih _ _ _ h
            | none => rw [hce] at h; dsimp only at h; exact ih _ _ _ h
          · rw [if_neg hcm] at h
            by_cases hsl : (content.drop (tagStart + 1)).head? = some '/'
            · rw [if_pos hsl] at h
              cases hce : findFrom content ['>'] tagStart with
              | some ce => rw [hce] at h; dsimp only at h; exact ih _ _ _ h
              | none => rw [hce] at h; dsimp only at h; exact ih _ _ _ h
            · rw [if_neg hsl] at h
              cases hot : openTagNameAt content tagStart with
              | none => rw [hot] at h; dsimp only at h; exact ih _ _ _ h
              | some name =>
                rw [hot] at h; dsimp only at h
                cases hgt : findFrom content ['>'] tagStart with
                | none => rw [hgt] at h; dsimp only at h; exact ih _ _ _ h
                | some gt =>
                  rw [hgt] at h; dsimp only at h
                  have hgt2 := findFrom_bounds (by simp) hgt
                  split at h
                  · split at h
                    · split at h
                      · cases h
                        simp only [List.length_cons, List.length_nil] at hts hgt2
                        simp
                        omega
                      · cases hmc : findMatchingCloseTag content (gt + 1) (toLowerL name) with
                        | some cr =>
                          rw [hmc] at h; dsimp only at h
                          cases h
                          have := findMatchingCloseTag_bounds hmc
                          simp only [List.length_cons, List.length_nil] at hts hgt2
                          simp
                          omega
                        | none => rw [hmc] at h; dsimp only at h; exact ih _ _ _ h
                    · exact ih _ _ _ h
                  · exact ih _ _ _ h

lemma findElementInRange_bounds {content : List Char} {rangeStart rangeEnd : Nat}
    {info : PathInfo} {loc : FoundLoc}
    (h : findElementInRange content rangeStart rangeEnd info = some loc) :
    loc.start ≤ loc.openTagEnd ∧ loc.openTagEnd ≤ loc.closeTagStart ∧
      loc.closeTagStart ≤ loc.stop ∧ loc.stop ≤ content.length := by
  unfold findElementInRange at h
  split at h
  case _ idv heq =>
    cases hm : tagWithInner info.tagName (fun region => idAttrIn idv region)
        (jsSubstring content rangeStart rangeEnd) 0 with
    | none => rw [hm] at h; cases h
    | some il =>
      rw [hm] at h; dsimp only at h
      obtain ⟨idx, len⟩ := il
      have hlen := tagWithInner_len_pos hm
      cases hmc : findMatchingCloseTag content (rangeStart + idx + len) info.tagName with
      | none => rw [hmc] at h; cases h
      | some cr =>
        rw [hmc] at h; dsimp only at h
        cases h
        have := findMatchingCloseTag_bounds hmc
        simp
        omega
  case _ heq => exact feirGo_bounds _ _ _ _ h

lemma febpLoop_bounds {content : List Char} :
    ∀ (segs : List (List Char)) (ss : Nat) (cur loc : FoundLoc),
      segs ≠ [] → febpLoop content segs ss cur = some loc →
      loc.start ≤ loc.openTagEnd ∧ loc.openTagEnd ≤ loc.closeTagStart ∧
        loc.closeTagStart ≤ loc.stop ∧ loc.stop ≤ content.length := by
  intro segs
  induction segs with
  | nil => intro ss cur loc hne; exact absurd rfl hne
  | cons seg rest ih =>
    intro ss cur loc _ h
    unfold febpLoop at h
    cases hpi : parsePathSegment seg with
    | none => rw [hpi] at h; cases h
    | some info =>
      rw [hpi] at h; dsimp only at h
      cases hfr : findElementInRange content ss cur.closeTagStart info with
      | none => rw [hfr] at h; cases h
      | some found =>
        rw [hfr] at h; dsimp only at h
        cases rest with
        | nil =>
          cases h
          exact findElementInRange_bounds hfr
        | cons seg2 rest2 => exact ih _ _ _ (by simp) h

lemma findElementByPath_bounds {content path : List Char} {loc : FoundLoc}
    (hseg : splitSegments path ≠ [])
    (h : findElementByPath content path = some loc) :
    loc.start ≤ loc.openTagEnd ∧ loc.openTagEnd ≤ loc.closeTagStart ∧
      loc.closeTagStart ≤ loc.stop ∧ loc.stop ≤ content.length := by
  unfold findElementByPath at h
  exact febpLoop_bounds _ _ _ _ hseg h

lemma length_spliceAt (cs ins : List Char) (pos : Nat) :
    (spliceAt cs pos ins).length = cs.length + ins.length := by
  simp [spliceAt]
  omega

lemma applyElementMove_some {content ep pp : List Char} {ni : Int} {out : List Char}
    (h : applyElementMove content ep pp ni = some out) :
    ∃ el par : FoundLoc,
      findElementByPath content (sanitizePath ep) = some el ∧
      findElementByPath (jsSubstring content 0 el.start ++ content.drop el.stop)
        (sanitizePath pp) = some par ∧
      out = spliceAt (jsSubstring content 0 el.start ++ content.drop el.stop)
        (let inner := jsSubstring
            (jsSubstring content 0 el.start ++ content.drop el.stop)
            par.openTagEnd par.closeTagStart
         let positions := directChildPositions inner
         if ni ≤ 0 ∨ positions.length = 0 then par.openTagEnd
         else if (positions.length : Int) ≤ ni then par.closeTagStart
         else par.openTagEnd + positions.getD ni.toNat 0)
        ('\n' :: ' ' :: ' ' :: jsSubstring content el.start el.stop) := by
  unfold applyElementMove at h
  cases h1 : findElementByPath content (sanitizePath ep) with
  | none => rw [h1] at h; cases h
  | some el =>
    rw [h1] at h; dsimp only at h
    cases h2 : findElementByPath (jsSubstring content 0 el.start ++ content.drop el.stop)
        (sanitizePath pp) with
    | none => rw [h2] at h; cases h
    | some par =>
      rw [h2] at h; dsimp only at h
      cases h
      exact ⟨el, par, rfl, h2, rfl⟩

end AG


/-- C1 (amended): for every moveElement request that succeeds, the
element's span is excised before the destination parent is resolved
(resolution runs on the excised text), the parent's direct structural
children are enumerated with the depth/comment/void-tag rules, and the
insertion offset is clamped: an index at or below zero — or any index
when the parent has no direct structural child — inserts immediately
after the parent's open tag, an index at or past the child count
inserts just before the parent's close tag, and the removed text,
preceded by a newline and two spaces, is spliced at that offset. -/
theorem move_excises_then_resolves (content ep pp : List Char) (ni : Int)
    (out : List Char) (h : AG.applyElementMove content ep pp ni = some out) :
    AG.MoveSpec content ep pp ni out :=
  AG.applyElementMove_some h

/-- Witness for C1 at a concrete move. -/
theorem move_excises_then_resolves_witness :
    AG.applyElementMove "<ul><li>A</li><li>B</li></ul>".toList
      "ul > li:nth-child(2)".toList "ul".toList 0 =
      some "<ul>\n  <li>B</li><li>A</li></ul>".toList ∧
    AG.MoveSpec "<ul><li>A</li><li>B</li></ul>".toList
      "ul > li:nth-child(2)".toList "ul".toList 0
      "<ul>\n  <li>B</li><li>A</li></ul>".toList :=
  ⟨by decide, move_excises_then_resolves _ _ _ _ _ (by decide)⟩

/-- Counterexample for C1 as stated: moving into a parent with no
structural children but non-empty text, a requested index past the
child count is spliced right after the parent's open tag, not just
before its close tag (and the splice carries a `"\n  "` prefix). -/
theorem move_clamp_counterexample :
    AG.applyElementMove "<div><p>x</p><section>hi</section></div>".toList
      "div > p".toList "div > section".toList 1 =
      some "<div><section>\n  <p>x</p>hi</section></div>".toList ∧
    "<div><section>\n  <p>x</p>hi</section></div>".toList ≠
      "<div><section>hi\n  <p>x</p></section></div>".toList ∧
    "<div><section>\n  <p>x</p>hi</section></div>".toList ≠
      "<div><section>hi<p>x</p></section></div>".toList := by decide

/-- C8 (amended): a successful moveElement with a non-empty element
locator path returns text exactly three characters longer than its
input — the span is excised and reinserted verbatim with a `"\n  "`
separator — so the round trip restores the original content only up to
those inserted separators, not byte-identically. -/
theorem move_length_plus_separator (content ep pp : List Char) (ni : Int)
    (out : List Char)
    (hseg : AG.splitSegments (AG.sanitizePath ep) ≠ [])
    (h : AG.applyElementMove content ep pp ni = some out) :
    out.length = content.length + 3 := by
  obtain ⟨el, par, h1, h2, hout⟩ := AG.applyElementMove_some h
  have hb := AG.findElementByPath_bounds hseg h1
  subst hout
  rw [AG.length_spliceAt]
  simp only [AG.jsSubstring, List.length_append, List.length_take,
    List.length_drop, List.length_cons]
  omega

/-- Witness for C8 at a concrete move. -/
theorem move_length_plus_separator_witness :
    ("<ul>\n  <li>B</li><li>A</li></ul>".toList).length =
      ("<ul><li>A</li><li>B</li></ul>".toList).length + 3 :=
  move_length_plus_separator "<ul><li>A</li><li>B</li></ul>".toList
    "ul > li:nth-child(2)".toList "ul".toList 0
    "<ul>\n  <li>B</li><li>A</li></ul>".toList (by decide) (by decide)

/-- Counterexample for C8 as stated: moving the second list item to
index 0 and back to index 1 (re-resolving between the calls) yields
the original document with two `"\n  "` separators inserted — not a
byte-identical copy — although no adjacent siblings share text. -/
theorem move_round_trip_counterexample :
    AG.applyElementMove "<ul><li>A</li><li>B</li></ul>".toList
      "ul > li:nth-child(2)".toList "ul".toList 0 =
      some "<ul>\n  <li>B</li><li>A</li></ul>".toList ∧
    AG.applyElementMove "<ul>\n  <li>B</li><li>A</li></ul>".toList
      "ul > li:nth-child(1)".toList "ul".toList 1 =
      some "<ul>\n  <li>A</li>\n  <li>B</li></ul>".toList ∧
    "<ul>\n  <li>A</li>\n  <li>B</li></ul>".toList ≠
      "<ul><li>A</li><li>B</li></ul>".toList := by decide

/-- C6: every mutation operation invoked with a locator that resolves
to no element returns the failure result `false` together with its
distinct not-found error message, and leaves the document and the
Pending state untouched (no session is opened or extended). -/
theorem notfound_distinct_failure :
    (∀ (m : List (List Char × AG.IdLoc)) (s : AG.EditorState)
        (p : List Char) (agId : Option (List Char)),
      (match agId with
        | some i => AG.deleteElementById m s.docText i
        | none => none) = none →
      AG.findElementByPath s.docText (AG.sanitizePath p) = none →
      AG.applyElementDeleteS m s p agId =
        (false, AG.pushErr s "Could not find element to delete".toList)) ∧
    (∀ (m : List (List Char × AG.IdLoc)) (s : AG.EditorState)
        (p : List Char) (agId : Option (List Char)),
      (match agId with
        | some i => AG.duplicateElementById m s.docText i
        | none => none) = none →
      AG.findElementByPath s.docText (AG.sanitizePath p) = none →
      AG.applyElementDuplicateS m s p agId =
        (false, AG.pushErr s "Could not find element to duplicate".toList)) ∧
    (∀ (s : AG.EditorState) (ep pp : List Char) (ni : Int),
      AG.findElementByPath s.docText (AG.sanitizePath ep) = none →
      AG.applyElementMoveS s ep pp ni =
        (false, AG.pushErr s "Could not find element to move".toList)) ∧
    (∀ (s : AG.EditorState) (path newText : List Char) (pi : AG.PathInfo),
      AG.parseElementPath path = some pi →
      AG.buildElementRegexMatch s.docText pi = none →
      AG.simpleMatch pi.tagName s.docText 0 = none →
      AG.applyTextEditS s path newText =
        (false, AG.pushErr s
          ("Could not find <".toList ++ pi.tagName ++ "> element".toList))) ∧
    (∀ (s : AG.EditorState) (path prop v : List Char) (pi : AG.PathInfo),
      AG.parseElementPath path = some pi →
      AG.buildElementRegexMatch s.docText pi = none →
      AG.applyStyleEditS s path prop v =
        (false, AG.pushErr s
          ("Could not find <".toList ++ pi.tagName ++ "> element".toList))) ∧
    (∀ (s : AG.EditorState) (msg : List Char),
      (AG.pushErr s msg).pending = s.pending ∧
      (AG.pushErr s msg).docText = s.docText) := by
  refine ⟨?_, ?_, ?_, ?_, ?_, ?_⟩
  · intro m s p agId hag hpath
    unfold AG.applyElementDeleteS
    rw [hag]
    dsimp only
    rw [hpath]
  · intro m s p agId hag hpath
    unfold AG.applyElementDuplicateS
    rw [hag]
    dsimp only
    rw [hpath]
  · intro s ep pp ni hpath
    unfold AG.applyElementMoveS
    rw [hpath]
  · intro s path newText pi hpi hreg hsimple
    unfold AG.applyTextEditS
    rw [hpi]
    dsimp only
    rw [hreg]
    dsimp only
    unfold AG.simpleTextReplaceS
    rw [hsimple]
  · intro s path prop v pi hpi hreg
    unfold AG.applyStyleEditS
    rw [hpi]
    dsimp only
    rw [hreg]
  · intro s msg
    exact ⟨rfl, rfl⟩

/-- Witness for C6: in `<div></div>` the locator `span` resolves to
nothing for each operation. -/
theorem notfound_distinct_failure_witness :
    (AG.applyElementDeleteS [] ⟨"<div></div>".toList, none, []⟩ "span".toList none =
      (false, AG.pushErr ⟨"<div></div>".toList, none, []⟩
        "Could not find element to delete".toList)) ∧
    (AG.applyElementDuplicateS [] ⟨"<div></div>".toList, none, []⟩ "span".toList none =
      (false, AG.pushErr ⟨"<div></div>".toList, none, []⟩
        "Could not find element to duplicate".toList)) ∧
    (AG.applyElementMoveS ⟨"<div></div>".toList, none, []⟩ "span".toList "div".toList 0 =
      (false, AG.pushErr ⟨"<div></div>".toList, none, []⟩
        "Could not find element to move".toList)) ∧
    (AG.applyTextEditS ⟨"<div></div>".toList, none, []⟩ "span".toList "T".toList =
      (false, AG.pushErr ⟨"<div></div>".toList, none, []⟩
        ("Could not find <".toList ++ "span".toList ++ "> element".toList))) ∧
    (AG.applyStyleEditS ⟨"<div></div>".toList, none, []⟩ "span".toList
        "color".toList "red".toList =
      (false, AG.pushErr ⟨"<div></div>".toList, none, []⟩
        ("Could not find <".toList ++ "span".toList ++ "> element".toList))) :=
  ⟨notfound_distinct_failure.1 [] _ _ none (by decide) (by decide),
    notfound_distinct_failure.2.1 [] _ _ none (by decide) (by decide),
    notfound_distinct_failure.2.2.1 _ _ "div".toList 0 (by decide),
    notfound_distinct_failure.2.2.2.1 _ _ "T".toList ⟨"span".toList, none, none, none⟩
      (by decide) (by decide) (by decide),
    notfound_distinct_failure.2.2.2.2.1 _ _ "color".toList "red".toList
      ⟨"span".toList, none, none, none⟩ (by decide) (by decide)⟩

/-- C9 (amended): with no existing style attribute, `applyStyleEdit`
rewrites the matched opening tag by inserting exactly one
` style="prop: value;"` attribute immediately before the tag's final
`>` (for a self-closing tag this lands after the `/`, not before the
`/>`); with an existing style attribute, the matching property's
declarations are all replaced by `prop: value;` (whitespace-tolerant)
when present, and otherwise the declaration is appended to the
attribute — after a single space when the existing style already ends
in `;`, after `"; "` otherwise.  The property name is case-folded from
camelCase to kebab-case before writing. -/
theorem style_edit_branches :
    (∀ (content path prop v : List Char) (pi : AG.PathInfo) (ml : Nat × Nat),
      AG.parseElementPath path = some pi →
      AG.buildElementRegexMatch content pi = some ml →
      AG.styleAttrFirstGo (AG.jsSubstring content ml.1 (ml.1 + ml.2)) 0 = none →
      AG.endsWith ['>'] (AG.jsSubstring content ml.1 (ml.1 + ml.2)) = true →
      AG.applyStyleEditCore content path prop v =
        some (AG.replaceFirst content (AG.jsSubstring content ml.1 (ml.1 + ml.2))
          ((AG.jsSubstring content ml.1 (ml.1 + ml.2)).dropLast ++
            ' ' :: "style=\"".toList ++ AG.camelToKebab prop ++
            ':' :: ' ' :: v ++ ';' :: '"' :: ['>']))) ∧
    (∀ (content path prop v : List Char) (pi : AG.PathInfo) (ml : Nat × Nat)
        (ms mslen : Nat) (existing : List Char),
      AG.parseElementPath path = some pi →
      AG.buildElementRegexMatch content pi = some ml →
      AG.styleAttrFirstGo (AG.jsSubstring content ml.1 (ml.1 + ml.2)) 0 =
        some (ms, mslen, existing) →
      (AG.propReplaceAll (AG.camelToKebab prop) v existing).1 = true →
      AG.applyStyleEditCore content path prop v =
        some (AG.replaceFirst content (AG.jsSubstring content ml.1 (ml.1 + ml.2))
          ((AG.jsSubstring content ml.1 (ml.1 + ml.2)).take ms ++
            "style=\"".toList ++ (AG.propReplaceAll (AG.camelToKebab prop) v existing).2 ++
            '"' :: (AG.jsSubstring content ml.1 (ml.1 + ml.2)).drop (ms + mslen)))) ∧
    (∀ (content path prop v : List Char) (pi : AG.PathInfo) (ml : Nat × Nat)
        (ms mslen : Nat) (existing : List Char),
      AG.parseElementPath path = some pi →
      AG.buildElementRegexMatch content pi = some ml →
      AG.styleAttrFirstGo (AG.jsSubstring content ml.1 (ml.1 + ml.2)) 0 =
        some (ms, mslen, existing) →
      (AG.propReplaceAll (AG.camelToKebab prop) v existing).1 = false →
      AG.endsWith [';'] existing = false →
      AG.applyStyleEditCore content path prop v =
        some (AG.replaceFirst content (AG.jsSubstring content ml.1 (ml.1 + ml.2))
          ((AG.jsSubstring content ml.1 (ml.1 + ml.2)).take ms ++
            "style=\"".toList ++ existing ++ ';' :: ' ' :: AG.camelToKebab prop ++
            ':' :: ' ' :: v ++ [';'] ++
            '"' :: (AG.jsSubstring content ml.1 (ml.1 + ml.2)).drop (ms + mslen)))) ∧
    (∀ (content path prop v : List Char) (pi : AG.PathInfo) (ml : Nat × Nat)
        (ms mslen : Nat) (existing : List Char),
      AG.parseElementPath path = some pi →
      AG.buildElementRegexMatch content pi = some ml →
      AG.styleAttrFirstGo (AG.jsSubstring content ml.1 (ml.1 + ml.2)) 0 =
        some (ms, mslen, existing) →
      (AG.propReplaceAll (AG.camelToKebab prop) v existing).1 = false →
      AG.endsWith [';'] existing = true →
      AG.applyStyleEditCore content path prop v =
        some (AG.replaceFirst content (AG.jsSubstring content ml.1 (ml.1 + ml.2))
          ((AG.jsSubstring content ml.1 (ml.1 + ml.2)).take ms ++
            "style=\"".toList ++ existing ++ ' ' :: AG.camelToKebab prop ++
            ':' :: ' ' :: v ++ [';'] ++
            '"' :: (AG.jsSubstring content ml.1 (ml.1 + ml.2)).drop (ms + mslen)))) := by
  refine ⟨?_, ?_, ?_, ?_⟩
  · intro content path prop v pi ml hpi hml hstyle hgt
    unfold AG.applyStyleEditCore
    rw [hpi]
    dsimp only
    rw [hml]
    dsimp only
    unfold AG.styleNewOpeningTag
    rw [hstyle]
    dsimp only
    rw [if_pos hgt]
  · intro content path prop v pi ml ms mslen existing hpi hml hstyle hfound
    unfold AG.applyStyleEditCore
    rw [hpi]
    dsimp only
    rw [hml]
    dsimp only
    unfold AG.styleNewOpeningTag
    rw [hstyle]
    dsimp only
    rw [if_pos hfound]
  · intro content path prop v pi ml ms mslen existing hpi hml hstyle hfound hsemi
    unfold AG.applyStyleEditCore
    rw [hpi]
    dsimp only
    rw [hml]
    dsimp only
    unfold AG.styleNewOpeningTag
    rw [hstyle]
    dsimp only
    rw [if_neg (by rw [hfound]; exact Bool.false_ne_true),
      if_neg (by rw [hsemi]; exact Bool.false_ne_true)]
    simp
  · intro content path prop v pi ml ms mslen existing hpi hml hstyle hfound hsemi
    unfold AG.applyStyleEditCore
    rw [hpi]
    dsimp only
    rw [hml]
    dsimp only
    unfold AG.styleNewOpeningTag
    rw [hstyle]
    dsimp only
    rw [if_neg (by rw [hfound]; exact Bool.false_ne_true), if_pos hsemi]
    simp

/-- Witness for C9: adding `backgroundColor` to a tag without a style
attribute, and appending `fontSize` to a `;`-terminated existing style
attribute. -/
theorem style_edit_branches_witness :
    (AG.applyStyleEditCore "<div class=\"a\">x</div>".toList "div".toList
      "backgroundColor".toList "red".toList =
      some (AG.replaceFirst "<div class=\"a\">x</div>".toList
        (AG.jsSubstring "<div class=\"a\">x</div>".toList 0 (0 + 15))
        ((AG.jsSubstring "<div class=\"a\">x</div>".toList 0 (0 + 15)).dropLast ++
          ' ' :: "style=\"".toList ++ AG.camelToKebab "backgroundColor".toList ++
          ':' :: ' ' :: "red".toList ++ ';' :: '"' :: ['>']))) ∧
    (AG.applyStyleEditCore "<div style=\"color: blue;\">x</div>".toList "div".toList
      "fontSize".toList "12px".toList =
      some (AG.replaceFirst "<div style=\"color: blue;\">x</div>".toList
        (AG.jsSubstring "<div style=\"color: blue;\">x</div>".toList 0 (0 + 26))
        ((AG.jsSubstring "<div style=\"color: blue;\">x</div>".toList 0 (0 + 26)).take 5 ++
          "style=\"".toList ++ "color: blue;".toList ++
          ' ' :: AG.camelToKebab "fontSize".toList ++
          ':' :: ' ' :: "12px".toList ++ [';'] ++
          '"' :: (AG.jsSubstring "<div style=\"color: blue;\">x</div>".toList
            0 (0 + 26)).drop (5 + 20)))) :=
  ⟨style_edit_branches.1 _ _ _ _ ⟨"div".toList, none, none, none⟩ (0, 15)
      (by decide) (by decide) (by decide) (by decide),
    style_edit_branches.2.2.2 _ _ _ _ ⟨"div".toList, none, none, none⟩ (0, 26)
      5 20 "color: blue;".toList
      (by decide) (by decide) (by decide) (by decide) (by decide)⟩

/-- Counterexample for C9 as stated: on a self-closing tag the new
style attribute is inserted between the `/` and the `>`, not before
the `/>`. -/
theorem style_edit_self_closing_counterexample :
    AG.applyStyleEditCore "<img src=\"a\"/>".toList "img".toList
      "color".toList "red".toList =
      some "<img src=\"a\"/ style=\"color: red;\">".toList ∧
    "<img src=\"a\"/ style=\"color: red;\">".toList ≠
      "<img src=\"a\" style=\"color: red;\"/>".toList := by decide
namespace AG

lemma SpanInv_mono {lo hi lo2 hi2 : Nat} {n : PNode} (h : SpanInv lo hi n)
    (h1 : lo2 ≤ lo) (h2 : hi ≤ hi2) : SpanInv lo2 hi2 n := by
  cases h with
  | node ha hb hc hcs => exact SpanInv.node (by omega) hb (by omega) hcs

lemma parseSibs_inv {content : List Char} :
    ∀ (fuel pos : Nat) {ns : List PNode} {p : Nat},
      pos ≤ content.length →
      parseSibs content fuel pos = some (ns, p) →
      pos ≤ p ∧ p ≤ content.length ∧ ∀ n ∈ ns, SpanInv pos p n := by
  intro fuel
  induction fuel with
  | zero => intro pos ns p hpos h; cases h
  | succ fuel ih =>
    intro pos ns p hpos h
    unfold parseSibs at h
    split at h
    · cases h
      exact ⟨le_refl _, hpos, by simp⟩
    · dsimp only at h
      split at h
      · cases h
        exact ⟨le_refl _, hpos, by simp⟩
      · split at h
        · -- comment
          cases hce : findFrom content "-->".toList pos with
          | none => rw [hce] at h; cases h
          | some ce =>
            rw [hce] at h
            have hb := findFrom_bounds (by simp) hce
            have hb3 : ("-->".toList).length = 3 := by decide
            rw [hb3] at hb
            obtain ⟨h1, h2, h3⟩ := ih (ce + 3) (by omega) h
            exact ⟨by omega, h2, fun n hn => SpanInv_mono (h3 n hn) (by omega) (le_refl _)⟩
        · split at h
          · -- doctype-style <!
            cases hgt : findFrom content ['>'] pos with
            | none => rw [hgt] at h; cases h
            | some gt =>
              rw [hgt] at h
              have hb := findFrom_bounds (by simp) hgt
              simp only [List.length_cons, List.length_nil] at hb
              obtain ⟨h1, h2, h3⟩ := ih (gt + 1) (by omega) h
              exact ⟨by omega, h2, fun n hn => SpanInv_mono (h3 n hn) (by omega) (le_refl _)⟩
          · cases hot : openTagNameAt content pos with
            | some rawName =>
              rw [hot] at h
              dsimp only at h
              cases hgt : findFrom content ['>'] pos with
              | none => rw [hgt] at h; cases h
              | some gt =>
                rw [hgt] at h
                dsimp only at h
                have hb := findFrom_bounds (by simp) hgt
                simp only [List.length_cons, List.length_nil] at hb
                split at h
                · -- self-closing
                  cases hsib : parseSibs content fuel (gt + 1) with
                  | none => rw [hsib] at h; cases h
                  | some sp =>
                    rw [hsib] at h
                    dsimp only at h
                    cases h
                    obtain ⟨h1, h2, h3⟩ := ih (gt + 1) (by omega) hsib
                    refine ⟨by omega, h2, ?_⟩
                    intro n hn
                    rcases List.mem_cons.mp hn with rfl | hn2
                    · exact SpanInv.node (le_refl _) (by omega) (by omega) (by simp)
                    · exact SpanInv_mono (h3 n hn2) (by omega) (le_refl _)
                · -- balanced element
                  cases hch : parseSibs content fuel (gt + 1) with
                  | none => rw [hch] at h; cases h
                  | some cp =>
                    rw [hch] at h
                    dsimp only at h
                    obtain ⟨children, cpos⟩ := cp
                    obtain ⟨hc1, hc2, hc3⟩ := ih (gt + 1) (by omega) hch
                    cases hct : closeTagMatchAt content cpos with
                    | none => rw [hct] at h; cases h
                    | some cl =>
                      rw [hct] at h
                      dsimp only at h
                      obtain ⟨cname, clen⟩ := cl
                      have hcb := closeTagMatchAt_bounds hct
                      split at h
                      · cases hsib : parseSibs content fuel (cpos + clen) with
                        | none => rw [hsib] at h; cases h
                        | some sp =>
                          rw [hsib] at h
                          dsimp only at h
                          cases h
                          obtain ⟨h1, h2, h3⟩ := ih (cpos + clen) (by omega) hsib
                          refine ⟨by omega, h2, ?_⟩
                          intro n hn
                          rcases List.mem_cons.mp hn with rfl | hn2
                          · refine SpanInv.node (le_refl _) (by omega) (by omega) ?_
                            intro c hc
                            exact SpanInv_mono (hc3 c hc) (by omega) (by omega)
                          · exact SpanInv_mono (h3 n hn2) (by omega) (le_refl _)
                      · cases h
            | none =>
              rw [hot] at h
              dsimp only at h
              split at h
              · -- stray '<'
                have hlt : pos < content.length := by
                  by_contra hge
                  push_neg at hge
                  simp_all
                obtain ⟨h1, h2, h3⟩ := ih (pos + 1) (by omega) h
                exact ⟨by omega, h2, fun n hn => SpanInv_mono (h3 n hn) (by omega) (le_refl _)⟩
              · -- text run
                cases hnx : findFrom content ['<'] (pos + 1) with
                | some nx =>
                  rw [hnx] at h
                  have hb := findFrom_bounds (by simp) hnx
                  simp only [List.length_cons, List.length_nil] at hb
                  obtain ⟨h1, h2, h3⟩ := ih nx (by omega) h
                  exact ⟨by omega, h2, fun n hn => SpanInv_mono (h3 n hn) (by omega) (le_refl _)⟩
                | none =>
                  rw [hnx] at h
                  cases h
                  exact ⟨hpos, le_refl _, by simp⟩

end AG

/-- C7: every document that parses successfully yields a tree in which
each node's span satisfies `0 ≤ sourceStart < sourceEnd ≤ len(text)`
and each child's span nests inside its parent's span. -/
theorem parse_span_invariant (content : List Char) (ns : List AG.PNode)
    (h : AG.parseHTMLm content = some ns) :
    ∀ n ∈ ns, AG.SpanInv 0 content.length n := by
  unfold AG.parseHTMLm at h
  cases hp : AG.parseSibs content (content.length + 2) 0 with
  | none => rw [hp] at h; cases h
  | some nsp =>
    rw [hp] at h
    dsimp only at h
    split at h
    case isTrue heq =>
      cases h
      obtain ⟨_, _, hinv⟩ := AG.parseSibs_inv _ _ (Nat.zero_le _) hp
      rw [heq] at hinv
      exact hinv
    case isFalse => cases h

/-- Witness for C7 at a concrete document. -/
theorem parse_span_invariant_witness :
    ∃ ns, AG.parseHTMLm "<div><p>x</p></div>".toList = some ns ∧
      ∀ n ∈ ns, AG.SpanInv 0 ("<div><p>x</p></div>".toList).length n :=
  ⟨(AG.parseHTMLm "<div><p>x</p></div>".toList).getD [], rfl,
    parse_span_invariant _ _ rfl⟩

/-- C10: `findElementById` ignores its content argument — the result
is determined solely by the stored identity map of the most recent
`injectElementIds` call, whose spans are the pre-injection positions. -/
theorem find_by_id_content_independent :
    (∀ (m : List (List Char × AG.IdLoc)) (id c1 c2 : List Char),
      AG.findElementById m c1 id = AG.findElementById m c2 id) ∧
    ((AG.injectElementIds "<ul><li>A</li><li>B</li></ul>".toList).map
      (fun r => AG.findElementById r.2 "unrelated text".toList "ag-1".toList) =
      some (some ⟨4, 14, "li".toList⟩)) := by
  constructor
  · intro m id c1 c2
    rfl
  · decide

/-- C5 (amended): duplication reinserts a copy of the resolved span
immediately after its end offset, separated by a newline, with the
first identity-marker attribute (and only the first) stripped from the
copy; on the `<ul><li>A</li><li>B</li></ul>` scenario the source span
carries no marker, so the copy is marker-free and the result is
exactly the specified document. -/
theorem duplicate_after_span :
    (∀ (m : List (List Char × AG.IdLoc)) (content id : List Char) (el : AG.IdLoc),
      AG.findElementById m content id = some el →
      AG.duplicateElementById m content id =
        some (AG.jsSubstring content 0 el.stop ++
          '\n' :: AG.stripFirstAgId (AG.jsSubstring content el.start el.stop) ++
          content.drop el.stop)) ∧
    ((AG.injectElementIds "<ul><li>A</li><li>B</li></ul>".toList).map
      (fun r => AG.duplicateElementById r.2
        "<ul><li>A</li><li>B</li></ul>".toList "ag-1".toList) =
      some (some "<ul><li>A</li>\n<li>A</li><li>B</li></ul>".toList)) := by
  constructor
  · intro m content id el h
    unfold AG.duplicateElementById
    rw [h]
  · decide

/-- Witness for C5 at a concrete resolved span. -/
theorem duplicate_after_span_witness :
    AG.duplicateElementById [("x".toList, ⟨4, 14, "li".toList⟩)]
      "<ul><li>A</li><li>B</li></ul>".toList "x".toList =
      some (AG.jsSubstring "<ul><li>A</li><li>B</li></ul>".toList 0 14 ++
        '\n' :: AG.stripFirstAgId
          (AG.jsSubstring "<ul><li>A</li><li>B</li></ul>".toList 4 14) ++
        "<ul><li>A</li><li>B</li></ul>".toList.drop 14) :=
  duplicate_after_span.1 _ _ _ ⟨4, 14, "li".toList⟩ (by decide)

/-- Counterexample for C5 as stated: when the duplicated text carries
two identity markers, only the first is stripped — the copy keeps the
second marker and aliases it. -/
theorem duplicate_second_marker_counterexample :
    ((AG.injectElementIds "<div>aaaaaaaaaaaaaaaaaaaaaaaaaaaaaa</div>".toList).map
      (fun r => AG.duplicateElementById r.2
        "<p data-ag-id=\"a\" data-ag-id=\"b\">Q</p>".toList "ag-0".toList) =
      some (some
        "<p data-ag-id=\"a\" data-ag-id=\"b\">Q</p>\n<p data-ag-id=\"b\">Q</p>".toList)) ∧
    (AG.findIn "data-ag-id=".toList
      (AG.stripFirstAgId
        "<p data-ag-id=\"a\" data-ag-id=\"b\">Q</p>".toList)).isSome = true := by
  decide
